import Mathlib

/-!
Verification of the bfs breadth-first file-tree walker and its expression
pipeline, as shallowly embedded from the C sources:

* `src/bftw.c` — the breadth-first walker, its directory cache (a binary
  heap of open directory handles keyed by `(depth desc, refcount asc)`),
  and the FIFO queue of directories left to explore;
* `src/unnamed/part_000` — the expression tree with its parse-time
  optimizer, the per-file evaluator, and the top-level `eval_cmdline`.

Machine integers are modelled as `Nat`/`Int` (the quantities involved —
depths, reference counts, sizes — never approach overflow in the C code's
types), paths as lists, fallible system calls as explicit outcome
parameters, and the callback as a state-threading function.  Each
definition cites the source location it is translated from.
-/

namespace Bfs

/-- Errno value for "No such file or directory". -/
def ENOENT : Nat := 2

/-- Errno value for "Invalid argument". -/
def EINVAL : Nat := 22

/-- Errno value for "Too many open files". -/
def EMFILE : Nat := 24

/-- File types distinguished by the model: the walker's `typeflag` reduced
to the cases the embedded code inspects (`BFTW_DIR`, `BFTW_ERROR`, others). -/
inductive TypeFlag : Type where
  | unknown : TypeFlag
  | dirF : TypeFlag
  | regF : TypeFlag
  | lnkF : TypeFlag
  | errF : TypeFlag
deriving DecidableEq, Repr, Inhabited

/-! ### The -sparse test (src/unnamed/part_000:3643, `eval_sparse`) -/

/-- Translation of `eval_sparse`, given an available stat result: the C code
computes `blkcnt_t expected = (statbuf->st_size + 511)/512` with C (truncating)
integer division and returns `statbuf->st_blocks < expected`.  `st_size` and
`st_blocks` are signed integer types in C, hence `Int` here. -/
def evalSparse (stSize stBlocks : Int) : Bool :=
  stBlocks < Int.tdiv (stSize + 511) 512

/-! ### The -hidden test (src/unnamed/part_000:3277, `eval_hidden`) -/

/-- Modelled from the spec: `xbasename` is declared in `src/util.h` ("basename()
variant that doesn't modify the input ... A pointer into path at the base name
offset") but its implementation is outside the given sources.  Following the
spec's words — `name_offset`: byte offset in `path` where the basename begins —
this computes the offset of the POSIX basename: trailing slashes are not part
of the basename, and a path with no slash is its own basename (offset 0). -/
def xbasenameOff (p : List Char) : Nat :=
  let r := p.reverse.dropWhile (fun c => c = '/')
  (r.drop (r.takeWhile (fun c => c ≠ '/')).length).length

/-- Translation of `eval_hidden`: returns
`ftwbuf->nameoff > 0 && ftwbuf->path[ftwbuf->nameoff] == '.'`. -/
def evalHidden (path : List Char) (nameoff : Nat) : Bool :=
  decide (0 < nameoff) && decide (path[nameoff]? = some '.')

/-! ### The -delete action (src/unnamed/part_000:3151, `eval_delete`) -/

/-- The fields of the `BFTW` record that `eval_delete` and `eval_error` read. -/
structure DeleteVisit where
  path : List Char
  atFd : Int
  atPath : List Char
  typeflag : TypeFlag
  depth : Nat
deriving Repr

/-- Observable outcome of one `eval_delete` call: its boolean value, the
`unlinkat` calls issued — each `(at_fd, at_path, AT_REMOVEDIR?)` — whether a
message was written to the error stream, and whether the shared return code
was set to -1 (the last two are what `eval_error` does when the error is not
ignored). -/
structure DeleteRes where
  value : Bool
  calls : List (Int × List Char × Bool)
  reported : Bool
  retSet : Bool
deriving Repr

/-- Translation of `eval_should_ignore` (src/unnamed/part_000:2943): an error
is ignored when `ignore_races` is set, the error is ENOENT, and the depth is
positive. -/
def evalShouldIgnore (ignoreRaces : Bool) (depth : Nat) (err : Nat) : Bool :=
  ignoreRaces && decide (err = ENOENT) && decide (0 < depth)

/-- Translation of `eval_delete`.  `unlink` supplies the outcome `unlinkat`
would produce for given arguments: `none` is success, `some err` is failure
with errno `err`.  When the path is exactly `"."` the code returns true
without calling `unlinkat`; otherwise it calls it once, passing `AT_REMOVEDIR`
exactly when `typeflag == BFTW_DIR`, and on failure routes the error through
`eval_error` (src/unnamed/part_000:2952) and returns false. -/
def evalDelete (ftw : DeleteVisit) (ignoreRaces : Bool)
    (unlink : Int → List Char → Bool → Option Nat) : DeleteRes :=
  if ftw.path = ['.'] then ⟨true, [], false, false⟩
  else
    let flag := decide (ftw.typeflag = TypeFlag.dirF)
    match unlink ftw.atFd ftw.atPath flag with
    | none => ⟨true, [(ftw.atFd, ftw.atPath, flag)], false, false⟩
    | some err =>
      let ign := evalShouldIgnore ignoreRaces ftw.depth err
      ⟨false, [(ftw.atFd, ftw.atPath, flag)], !ign, !ign⟩

/-! ### The callback invocation (src/bftw.c:767, `bftw_handle_path`) -/

/-- Pre-order versus post-order callback phase (`ftwbuf->visit`). -/
inductive BftwVisit : Type where
  | pre : BftwVisit
  | post : BftwVisit
deriving DecidableEq, Repr

/-- The `struct BFTW` metadata record (src/bftw.h via src/bftw.c usage): the
stat buffer pointer is modelled as an opaque reference (`Option Nat`). -/
structure BftwFtwbuf where
  path : List Char
  root : List Char
  nameoff : Nat
  depth : Nat
  visit : BftwVisit
  typeflag : TypeFlag
  error : Nat
  statbuf : Option Nat
  atFd : Int
  atPath : List Char
deriving Repr

/-- The walker state fields that `bftw_handle_path` can touch, plus the
walker-owned path buffer and current entry named by claim C9; `current` is an
opaque entry reference. -/
structure BftwWalkerSt where
  ftwbuf : BftwFtwbuf
  pathBuf : List Char
  current : Option Nat
  flagsRecover : Bool
  error : Nat
deriving Repr

/-- What the callback returns: the four valid `bftw_action` values, or any
other value (the C default branch). -/
inductive CbRet : Type where
  | cont : CbRet
  | skipSiblings : CbRet
  | skipSubtree : CbRet
  | stop : CbRet
  | invalid : CbRet
deriving DecidableEq, Repr

/-- Result of `bftw_handle_path`: a valid action or the internal `BFTW_FAIL`. -/
inductive HandleRet : Type where
  | cont : HandleRet
  | skipSiblings : HandleRet
  | skipSubtree : HandleRet
  | stop : HandleRet
  | fail : HandleRet
deriving DecidableEq, Repr

/-- Translation of `bftw_handle_path`: refuse to show `BFTW_ERROR` records to
the callback unless `BFTW_RECOVER` is set; otherwise invoke the callback on a
defensive copy of `state->ftwbuf`.  The callback may mutate its copy — it
returns the possibly-rewritten record — but only its action is used.  An
invalid return value sets `state->error = EINVAL` and fails. -/
def bftwHandlePath (st : BftwWalkerSt) (fn : BftwFtwbuf → CbRet × BftwFtwbuf) :
    HandleRet × BftwWalkerSt :=
  if st.ftwbuf.typeflag = TypeFlag.errF ∧ st.flagsRecover = false then
    (HandleRet.fail, st)
  else
    let copy := st.ftwbuf
    let r := fn copy
    match r.1 with
    | CbRet.cont => (HandleRet.cont, st)
    | CbRet.skipSiblings => (HandleRet.skipSiblings, st)
    | CbRet.skipSubtree => (HandleRet.skipSubtree, st)
    | CbRet.stop => (HandleRet.stop, st)
    | CbRet.invalid => (HandleRet.fail, { st with error := EINVAL })

/-! ### The directory cache heap (src/bftw.c:42-372) -/

/-- A `dircache_entry` as the heap sees it: its identity and the two key
fields `depth` and `refcount` that `dircache_heap_check` compares.  (`fd`,
parent links and names play no role in the heap order.) -/
structure DCEntry where
  id : Nat
  depth : Nat
  refcount : Nat
deriving DecidableEq, Repr, Inhabited

/-- Translation of `dircache_heap_check` (src/bftw.c:100): `parent` may sit
above `child` when it is strictly deeper, or equally deep with a reference
count no larger. -/
def dircacheHeapCheck (parent child : DCEntry) : Bool :=
  if child.depth < parent.depth then true
  else if parent.depth < child.depth then false
  else decide (parent.refcount ≤ child.refcount)

/-- Translation of `dircache_bubble_down` (src/bftw.c:135): starting from slot
`i` (whose stale content is about to be overwritten), repeatedly promote the
order-preferred child into the hole and descend, placing `e` at the leaf slot
reached.  Note the C loop has no early-exit comparison between `e` and the
promoted child.  The loop advances `i` to at least `2i+1` each step, so it
runs at most `h.length` times; the recursion carries that much fuel (the
out-of-fuel branch is never reached) to stay structural. -/
def dircacheBubbleDownF : Nat → List DCEntry → DCEntry → Nat → List DCEntry
  | 0, h, e, i => h.set i e
  | fuel+1, h, e, i =>
    if hci : 2*i + 1 < h.length then
      if hri : 2*i + 2 < h.length then
        if dircacheHeapCheck (h.get ⟨2*i + 1, hci⟩) (h.get ⟨2*i + 2, hri⟩) then
          dircacheBubbleDownF fuel (h.set i (h.get ⟨2*i + 1, hci⟩)) e (2*i + 1)
        else
          dircacheBubbleDownF fuel (h.set i (h.get ⟨2*i + 2, hri⟩)) e (2*i + 2)
      else
        dircacheBubbleDownF fuel (h.set i (h.get ⟨2*i + 1, hci⟩)) e (2*i + 1)
    else
      h.set i e

/-- `dircache_bubble_down` with its sufficient fuel. -/
def dircacheBubbleDown (h : List DCEntry) (e : DCEntry) (i : Nat) : List DCEntry :=
  dircacheBubbleDownF h.length h e i

/-- Translation of `dircache_bubble_up` (src/bftw.c:117): while the parent
slot violates the heap order against `e`, demote the parent and ascend;
place `e` where the loop stops.  Call sites keep `i` within bounds, so the
out-of-range default of `getD` is never consulted; `i` shrinks every step,
so `i` itself bounds the iteration count (fuel, as above). -/
def dircacheBubbleUpF : Nat → List DCEntry → DCEntry → Nat → List DCEntry
  | 0, h, e, i => h.set i e
  | fuel+1, h, e, i =>
    if 0 < i then
      if dircacheHeapCheck (h.getD ((i - 1)/2) e) e then h.set i e
      else dircacheBubbleUpF fuel (h.set i (h.getD ((i - 1)/2) e)) e ((i - 1)/2)
    else h.set i e

/-- `dircache_bubble_up` with its sufficient fuel. -/
def dircacheBubbleUp (h : List DCEntry) (e : DCEntry) (i : Nat) : List DCEntry :=
  dircacheBubbleUpF (i + 1) h e i

/-- Translation of `dircache_push` (src/bftw.c:181): append at the end and
bubble up from there. -/
def dircachePush (h : List DCEntry) (e : DCEntry) : List DCEntry :=
  dircacheBubbleUp (h ++ [e]) e h.length

/-- Translation of `dircache_pop` (src/bftw.c:191) for the entry at slot `i`:
shrink the heap; if the removed slot was not the last one, move the last
entry into it and bubble that entry down. -/
def dircachePopAt (h : List DCEntry) (i : Nat) : List DCEntry :=
  if i = h.length - 1 then h.take (h.length - 1)
  else
    match h.get? (h.length - 1) with
    | some e => dircacheBubbleDown (h.take (h.length - 1)) e i
    | none => h.take (h.length - 1)

/-- The heap-order invariant claimed for the cache: every parent/child pair of
heap slots (child at `i > 0`, parent at `(i-1)/2`) satisfies
`dircache_heap_check`. -/
def HeapOrdered (h : List DCEntry) : Prop :=
  ∀ i j : Fin h.length, j.1 = (i.1 - 1)/2 → 0 < i.1 →
    dircacheHeapCheck (h.get j) (h.get i) = true

instance (h : List DCEntry) : Decidable (HeapOrdered h) := by
  unfold HeapOrdered; infer_instance

/-- The dircache as `dircache_entry_open` and `dircache_should_retry` see it:
the heap of open entries (its length is `cache->size`) and the capacity. -/
structure DirCache where
  heap : List DCEntry
  capacity : Nat
deriving Repr

/-- Outcome of an `openat`/`dup` system call: a descriptor or an errno. -/
inductive SysRes : Type where
  | ok : Nat → SysRes
  | err : Nat → SysRes
deriving DecidableEq, Repr

/-- Translation of `dircache_should_retry` (src/bftw.c:285): on EMFILE with
more than one open entry, close the heap root — or `heap[1]` when the root is
the entry that must be preserved — set the capacity to the shrunk size, and
tell the caller to retry.  Returns (retry?, new cache, id of the closed
entry). -/
def dircacheShouldRetry (c : DirCache) (save : Option Nat) (errno : Nat) :
    Bool × DirCache × Option Nat :=
  if errno = EMFILE ∧ 1 < c.heap.length then
    let i := match c.heap.get? 0 with
      | some e => if save = some e.id then 1 else 0
      | none => 0
    let closed := (c.heap.get? i).map (fun e => e.id)
    let heap' := dircachePopAt c.heap i
    (true, ⟨heap', heap'.length⟩, closed)
  else (false, c, none)

/-- The system-call outcomes a `dircache_entry_open` call can consume: the
first `openat`, the at-most-one retried `openat`, the first `dup`, the
at-most-one retried `dup`, and `fdopendir`. -/
structure OpenEnv where
  open1 : SysRes
  open2 : SysRes
  dup1 : SysRes
  dup2 : SysRes
  fdopendir : SysRes
deriving Repr

/-- Result of `dircache_entry_open`: the `DIR *` (as its fd) or `NULL`, the
cache afterwards, and the errno left behind (0 when untouched). -/
structure OpenOut where
  dir : Option Nat
  cache : DirCache
  errno : Nat
deriving Repr

/-- The half of `dircache_entry_open` after a successful `openat`: push the
entry, then `dup` the fd (retrying once via `dircache_should_retry` with the
just-pushed entry preserved) and hand the duplicate to `fdopendir`. -/
def dircacheOpenAfter (c : DirCache) (entry : DCEntry) (env : OpenEnv) : OpenOut :=
  let c2 : DirCache := ⟨dircachePush c.heap entry, c.capacity⟩
  let finish : Nat → DirCache → OpenOut := fun _ cdone =>
    match env.fdopendir with
    | SysRes.ok d => ⟨some d, cdone, 0⟩
    | SysRes.err e => ⟨none, cdone, e⟩
  match env.dup1 with
  | SysRes.ok fd2 => finish fd2 c2
  | SysRes.err e1 =>
    let r := dircacheShouldRetry c2 (some entry.id) e1
    if r.1 then
      match env.dup2 with
      | SysRes.ok fd2 => finish fd2 r.2.1
      | SysRes.err e2 => ⟨none, r.2.1, e2⟩
    else ⟨none, c2, e1⟩

/-- Translation of `dircache_entry_open` (src/bftw.c:313): if the heap is
full, close the root first; try `openat` relative to the closest open
ancestor `base`, retrying exactly once when `dircache_should_retry` (with
`base` preserved) says to; on success push the entry and proceed to the
`dup`/`fdopendir` half.  Any unretried failure returns `NULL` with the
failing call's errno. -/
def dircacheEntryOpen (c : DirCache) (entry : DCEntry) (base : Option Nat)
    (env : OpenEnv) : OpenOut :=
  let c0 := if c.heap.length = c.capacity then
    (⟨dircachePopAt c.heap 0, c.capacity⟩ : DirCache) else c
  match env.open1 with
  | SysRes.ok _ => dircacheOpenAfter c0 entry env
  | SysRes.err e1 =>
    let r := dircacheShouldRetry c0 base e1
    if r.1 then
      match env.open2 with
      | SysRes.ok _ => dircacheOpenAfter r.2.1 entry env
      | SysRes.err e2 => ⟨none, r.2.1, e2⟩
    else ⟨none, c0, e1⟩

/-! ### The breadth-first walker (src/bftw.c:906, `bftw`)

The file tree is modelled as a rose tree; a node is identified by its index
path from the root (the list of child positions taken), so the node's depth
is the length of its path.  Cycle detection, device boundaries and I/O
failures are not modelled (they only remove visits); the dircache's heap is
orthogonal to the visit order — it decides which descriptors stay open, never
which directory is read next — so the cache is modelled by exactly the data
the traversal logic reads: each live entry's reference count, keyed by path
(`dircache_entry`'s `refcount` and parent chain, src/bftw.c:42).  The
`dirqueue` (src/bftw.c:377) is a FIFO — `dirqueue_push` appends at the tail,
growing the circular buffer without reordering, and `dirqueue_pop` takes the
head — modelled as a list used at one end for pushes and the other for pops.
The callback is an arbitrary state-threading function, so the theorems
quantify over every behaviour a `bftw_fn` (with valid return values) can
exhibit. -/

/-- A file-system object: a plain file (any non-directory) or a directory
with an ordered list of children (readdir order). -/
inductive FSObj : Type where
  | file : FSObj
  | dir : List FSObj → FSObj

/-- Whether the object would get `typeflag == BFTW_DIR`. -/
def FSObj.isDir : FSObj → Bool
  | FSObj.file => false
  | FSObj.dir _ => true

mutual

/-- Number of nodes of a tree (termination measure for the walk loop). -/
def FSObj.size : FSObj → Nat
  | FSObj.file => 1
  | FSObj.dir cs => 1 + FSObj.sizeList cs

/-- Total size of a list of trees. -/
def FSObj.sizeList : List FSObj → Nat
  | [] => 0
  | c :: cs => FSObj.size c + FSObj.sizeList cs

end

/-- The four valid callback return values (`enum bftw_action`). -/
inductive BftwAction : Type where
  | cont : BftwAction
  | skipSiblings : BftwAction
  | skipSubtree : BftwAction
  | stop : BftwAction
deriving DecidableEq, Repr

/-- One callback invocation as the model records it: the visited node's index
path (its length is the `depth` field of the C record), whether the node is a
directory, and the visit phase. -/
structure Visit where
  path : List Nat
  isDir : Bool
  visit : BftwVisit
deriving DecidableEq, Repr

/-- The reference counts of the live `dircache_entry`s, keyed by index path:
an association list with pairwise-distinct keys. -/
abbrev Refs := List (List Nat × Nat)

/-- Look up a live entry's reference count (0 when the entry does not exist). -/
def refsGet : Refs → List Nat → Nat
  | [], _ => 0
  | (q, n) :: rs, p => if q = p then n else refsGet rs p

/-- Overwrite a live entry's reference count. -/
def refsSet : Refs → List Nat → Nat → Refs
  | [], _, _ => []
  | (q, n) :: rs, p, m => if q = p then (q, m) :: rs else (q, n) :: refsSet rs p m

/-- Remove a live entry (`dircache_entry_free`). -/
def refsErase : Refs → List Nat → Refs
  | [], _ => []
  | (q, n) :: rs, p => if q = p then rs else (q, n) :: refsErase rs p

/-- The live entries' paths. -/
def refsKeys (rs : Refs) : List (List Nat) :=
  rs.map (fun e => e.1)

/-- A queue/current entry: the directory's index path and its children. -/
abbrev EntT := (List Nat) × List FSObj

/-- Termination weight of an entry: the size of the directory node it stands
for. -/
def entSize (e : EntT) : Nat :=
  1 + FSObj.sizeList e.2

/-- What one readdir loop over the current directory's children produces
(src/bftw.c:955-1003): the pre-order visits emitted in order, the child
directories pushed onto the queue (in order, `bftw_push`), the updated
reference counts, the callback state, and whether `BFTW_STOP` ended the
whole walk. -/
structure ExpandRes (σ : Type) where
  evs : List Visit
  ents : List EntT
  refs : Refs
  st : σ
  stopped : Bool

/-- Translation of the readdir loop of `bftw` (src/bftw.c:955): for the child
at position `i`, build the record and invoke the callback (`bftw_init_buffers`
+ `bftw_handle_path`); on `BFTW_CONTINUE` a directory child is pushed —
`bftw_push` creates its cache entry with refcount 1 and increments the
current entry's refcount (`dircache_add`, src/bftw.c:208) — on
`BFTW_SKIP_SUBTREE` it is not pushed, `BFTW_SKIP_SIBLINGS` abandons the
remaining children, and `BFTW_STOP` ends the walk. -/
def expandChildren {σ : Type} (cb : σ → Visit → BftwAction × σ) (cp : List Nat) :
    Nat → List FSObj → Refs → σ → ExpandRes σ
  | _, [], rs, s => ⟨[], [], rs, s, false⟩
  | i, c :: cs, rs, s =>
    let v : Visit := ⟨cp ++ [i], c.isDir, BftwVisit.pre⟩
    let as' := cb s v
    match as'.1 with
    | BftwAction.stop => ⟨[v], [], rs, as'.2, true⟩
    | BftwAction.skipSiblings => ⟨[v], [], rs, as'.2, false⟩
    | BftwAction.skipSubtree =>
      let r := expandChildren cb cp (i+1) cs rs as'.2
      ⟨v :: r.evs, r.ents, r.refs, r.st, r.stopped⟩
    | BftwAction.cont =>
      match c with
      | FSObj.file =>
        let r := expandChildren cb cp (i+1) cs rs as'.2
        ⟨v :: r.evs, r.ents, r.refs, r.st, r.stopped⟩
      | FSObj.dir gs =>
        let rs' := ((cp ++ [i], 1) : (List Nat) × Nat) ::
          refsSet rs cp (refsGet rs cp + 1)
        let r := expandChildren cb cp (i+1) cs rs' as'.2
        ⟨v :: r.evs, (cp ++ [i], gs) :: r.ents, r.refs, r.st, r.stopped⟩

/-- What garbage collection produces: updated reference counts, the
post-order visits emitted (in order), the callback state, and whether a
post-order callback returned `BFTW_STOP`. -/
structure GcRes (σ : Type) where
  refs : Refs
  evs : List Visit
  st : σ
  stopRet : Bool

/-- Translation of the loop of `bftw_gc` (src/bftw.c:827): walk up the parent
chain from `p` decrementing reference counts; stop at the first entry whose
count stays positive; each entry whose count reaches zero fires its
post-order callback (when `invoke` is still on) and is freed.  A `BFTW_STOP`
(or fail) returned by a post-order callback is recorded and disables further
callbacks while the chain keeps being freed. -/
def bftwGcChain {σ : Type} (cb : σ → Visit → BftwAction × σ) :
    List Nat → Refs → σ → Bool → GcRes σ
  | p, rs, s, invoke =>
    let n := refsGet rs p
    if 1 < n then ⟨refsSet rs p (n - 1), [], s, false⟩
    else
      let rs' := refsErase rs p
      if invoke then
        let v : Visit := ⟨p, true, BftwVisit.post⟩
        let as' := cb s v
        let stopHere := decide (as'.1 = BftwAction.stop)
        if p = [] then ⟨rs', [v], as'.2, stopHere⟩
        else
          let r := bftwGcChain cb p.dropLast rs' as'.2 (!stopHere)
          ⟨r.refs, v :: r.evs, r.st, stopHere || r.stopRet⟩
      else
        if p = [] then ⟨rs', [], s, false⟩
        else bftwGcChain cb p.dropLast rs' s false
  termination_by p _ _ _ => p.length
  decreasing_by
  · cases p with
    | nil => simp_all
    | cons a l => simp only [List.length_dropLast, List.length_cons]; omega
  · cases p with
    | nil => simp_all
    | cons a l => simp only [List.length_dropLast, List.length_cons]; omega

/-- Translation of `bftw_gc`'s entry point (src/bftw.c:811): post-order
callbacks are invoked only when the `BFTW_DEPTH` flag is set. -/
def bftwGc {σ : Type} (cb : σ → Visit → BftwAction × σ) (depthFlag : Bool)
    (p : List Nat) (rs : Refs) (s : σ) (invoke : Bool) : GcRes σ :=
  bftwGcChain cb p rs s (invoke && depthFlag)

/-- The directories pushed while expanding a directory weigh less than the
directory's own child list: the loop below recurses on strictly smaller
remaining work.  (Stated before the loop because its well-founded recursion
needs it.) -/
theorem expandChildren_ents_size {σ : Type} (cb : σ → Visit → BftwAction × σ)
    (cp : List Nat) (i : Nat) (cs : List FSObj) (rs : Refs) (s : σ) :
    (((expandChildren cb cp i cs rs s).ents.map entSize).sum) ≤ FSObj.sizeList cs := by
  induction cs generalizing i rs s with
  | nil => simp [expandChildren]
  | cons c cs ih =>
    simp only [expandChildren]
    rcases h : cb s ⟨cp ++ [i], c.isDir, BftwVisit.pre⟩ with ⟨a, s'⟩
    cases a with
    | stop => simp [FSObj.sizeList]
    | skipSiblings => simp [FSObj.sizeList]
    | skipSubtree =>
      simp only [FSObj.sizeList]
      have := ih (i+1) rs s'
      omega
    | cont =>
      cases c with
      | file =>
        simp only [FSObj.sizeList, FSObj.size]
        have := ih (i+1) rs s'
        omega
      | dir gs =>
        simp only [FSObj.sizeList, FSObj.size, List.map_cons, List.sum_cons, entSize]
        have := ih (i+1) (((cp ++ [i], 1) : (List Nat) × Nat) ::
          refsSet rs cp (refsGet rs cp + 1)) s'
        omega

/-- Translation of the main loop of `bftw` (src/bftw.c:946): expand the
current directory's children, then `bftw_pop` (src/bftw.c:883) —
garbage-collect the chain starting at the current entry, invoking post-order
callbacks, and pop the next directory off the FIFO queue — until the queue is
exhausted, a callback stops the walk, or a post-order callback stops it. -/
def bftwLoop {σ : Type} (cb : σ → Visit → BftwAction × σ) (depthFlag : Bool) :
    EntT → List EntT → Refs → σ → List Visit × σ
  | cur, queue, rs, s =>
    let e := expandChildren cb cur.1 0 cur.2 rs s
    if e.stopped then (e.evs, e.st)
    else
      let g := bftwGc cb depthFlag cur.1 e.refs e.st true
      if g.stopRet then (e.evs ++ g.evs, g.st)
      else
        match h : queue ++ e.ents with
        | [] => (e.evs ++ g.evs, g.st)
        | nxt :: rest =>
          let r := bftwLoop cb depthFlag nxt rest g.refs g.st
          (e.evs ++ g.evs ++ r.1, r.2)
  termination_by cur queue _ _ => entSize cur + (queue.map entSize).sum
  decreasing_by
  have hsum : ((nxt :: rest).map entSize).sum
      = ((queue.map entSize).sum)
        + (((expandChildren cb cur.1 0 cur.2 rs s).ents.map entSize).sum) := by
    rw [← h]; simp
  have hb := expandChildren_ents_size cb cur.1 0 cur.2 rs s
  simp only [List.map_cons, List.sum_cons, entSize] at hsum
  simp only [entSize]
  omega

/-- Translation of `bftw` itself (src/bftw.c:906): visit the root (depth 0)
first; unless the callback said to skip or stop, and the root is a directory,
seed the cache with the root's entry (refcount 1) and run the breadth-first
loop.  The result is the ordered list of callback invocations and the final
callback state. -/
def bftwRun {σ : Type} (cb : σ → Visit → BftwAction × σ) (depthFlag : Bool)
    (root : FSObj) (s0 : σ) : List Visit × σ :=
  let v0 : Visit := ⟨[], root.isDir, BftwVisit.pre⟩
  let as' := cb s0 v0
  match as'.1 with
  | BftwAction.skipSubtree => ([v0], as'.2)
  | BftwAction.stop => ([v0], as'.2)
  | _ =>
    match root with
    | FSObj.file => ([v0], as'.2)
    | FSObj.dir cs =>
      let r := bftwLoop cb depthFlag ([], cs) [] [([], 1)] as'.2
      (v0 :: r.1, r.2)

/-! ### The expression tree and optimizer (src/unnamed/part_000)

`struct expr` carries an eval function pointer, owned operands, and the
flags `pure`, `always_true`, `always_false`.  The embedding represents the
two singletons `expr_true`/`expr_false` as constructors (the C code
recognises them by pointer identity, and they are the only expressions
whose eval is `eval_true`/`eval_false`), pure tests as predicates on the
evaluation state, and impure actions as state transformers.  The evaluation
state is the part of `struct eval_state` an expression can reach: an
arbitrary world (the output sinks, the shared return code, the metadata
record, ...) plus the quit flag that the operators consult. -/

/-- The evaluation state: an arbitrary mutable world plus `*state->quit`. -/
structure EvalSt (W : Type) where
  world : W
  quit : Bool

/-- Expression trees (`struct expr`).  `test` is a leaf built with
`pure = true` (it reads the state but cannot write it); `act` is a leaf built
with `pure = false` (an arbitrary state transformer). -/
inductive Expr (W : Type) : Type where
  | etrue : Expr W
  | efalse : Expr W
  | test : (EvalSt W → Bool) → Expr W
  | act : (EvalSt W → Bool × EvalSt W) → Expr W
  | enot : Expr W → Expr W
  | eand : Expr W → Expr W → Expr W
  | eor : Expr W → Expr W → Expr W
  | ecomma : Expr W → Expr W → Expr W

/-- The `pure` flag, as `new_expr`/`new_unary_expr`/`new_binary_expr` compute
it (src/unnamed/part_000:96,125,139): tests and the singletons are pure,
actions are not, operators are pure when all operands are. -/
def Expr.pureB {W : Type} : Expr W → Bool
  | Expr.etrue => true
  | Expr.efalse => true
  | Expr.test _ => true
  | Expr.act _ => false
  | Expr.enot r => r.pureB
  | Expr.eand l r => l.pureB && r.pureB
  | Expr.eor l r => l.pureB && r.pureB
  | Expr.ecomma l r => l.pureB && r.pureB

mutual

/-- The `always_true` flag as the constructors assign it
(src/unnamed/part_000:50,107,2352,2451,2542,2612). -/
def Expr.alwaysTrue {W : Type} : Expr W → Bool
  | Expr.etrue => true
  | Expr.efalse => false
  | Expr.test _ => false
  | Expr.act _ => false
  | Expr.enot r => r.alwaysFalse
  | Expr.eand l r => l.alwaysTrue && r.alwaysTrue
  | Expr.eor l r => l.alwaysTrue || r.alwaysTrue
  | Expr.ecomma _ r => r.alwaysTrue

/-- The `always_false` flag, dually. -/
def Expr.alwaysFalse {W : Type} : Expr W → Bool
  | Expr.etrue => false
  | Expr.efalse => true
  | Expr.test _ => false
  | Expr.act _ => false
  | Expr.enot r => r.alwaysTrue
  | Expr.eand l r => l.alwaysFalse || r.alwaysFalse
  | Expr.eor l r => l.alwaysFalse && r.alwaysFalse
  | Expr.ecomma _ r => r.alwaysFalse

end

/-- Whether a node is a negation (`expr->eval == eval_not`). -/
def Expr.isNot {W : Type} : Expr W → Bool
  | Expr.enot _ => true
  | _ => false

/-- Whether a node is the false singleton (`expr == &expr_false`, or
equivalently `expr->eval == eval_false`). -/
def Expr.isEFalse {W : Type} : Expr W → Bool
  | Expr.efalse => true
  | _ => false

/-- Translation of `eval_not`/`eval_and`/`eval_or`/`eval_comma` and the leaf
dispatch (src/unnamed/part_000:3760-3806): short-circuit evaluation that
returns false without touching the right operand once the quit flag is set.
(The `eval_expr` wrapper's statistics and timing are not observable and are
omitted.) -/
def evalExpr {W : Type} : Expr W → EvalSt W → Bool × EvalSt W
  | Expr.etrue, s => (true, s)
  | Expr.efalse, s => (false, s)
  | Expr.test f, s => (f s, s)
  | Expr.act f, s => f s
  | Expr.enot r, s =>
    let br := evalExpr r s
    (!br.1, br.2)
  | Expr.eand l r, s =>
    let bl := evalExpr l s
    if bl.1 = false then (false, bl.2)
    else if bl.2.quit = true then (false, bl.2)
    else evalExpr r bl.2
  | Expr.eor l r, s =>
    let bl := evalExpr l s
    if bl.1 = true then (true, bl.2)
    else if bl.2.quit = true then (false, bl.2)
    else evalExpr r bl.2
  | Expr.ecomma l r, s =>
    let bl := evalExpr l s
    if bl.2.quit = true then (false, bl.2)
    else evalExpr r bl.2

mutual

/-- Translation of `new_not_expr` (src/unnamed/part_000:2308).  The mutual
recursion of the C smart constructors is not structural, so the model carries
fuel; out of fuel it builds the unoptimized node, exactly what optimization
level 0 does (the C recursion always terminates, i.e. has enough fuel). -/
def newNotExpr {W : Type} : Nat → Nat → Expr W → Expr W
  | 0, _, r => Expr.enot r
  | fuel+1, o, r =>
    if 1 ≤ o then
      match r with
      | Expr.etrue => Expr.efalse
      | Expr.efalse => Expr.etrue
      | Expr.enot x => x
      | Expr.eand a b =>
        if a.isNot || b.isNot then
          newOrExpr fuel o (newNotExpr fuel o a) (newNotExpr fuel o b)
        else Expr.enot (Expr.eand a b)
      | Expr.eor a b =>
        if a.isNot || b.isNot then
          newAndExpr fuel o (newNotExpr fuel o a) (newNotExpr fuel o b)
        else Expr.enot (Expr.eor a b)
      | x => Expr.enot x
    else Expr.enot r

/-- Translation of `new_and_expr` (src/unnamed/part_000:2413): conjunction
elimination against the true singleton, short-circuit elimination on an
always-false left operand, the level-2 purity rewrite dropping a pure left
operand when the right is always false, and De Morgan's law when both
operands are negations. -/
def newAndExpr {W : Type} : Nat → Nat → Expr W → Expr W → Expr W
  | 0, _, l, r => Expr.eand l r
  | fuel+1, o, l, r =>
    if 1 ≤ o then
      match l, r with
      | Expr.etrue, r => r
      | l, Expr.etrue => l
      | l, r =>
        if l.alwaysFalse then l
        else if 2 ≤ o && r.alwaysFalse && l.pureB then r
        else
          match l, r with
          | Expr.enot a, Expr.enot b => newNotExpr fuel o (newOrExpr fuel o a b)
          | l, r => Expr.eand l r
    else Expr.eand l r

/-- Translation of `new_or_expr` (src/unnamed/part_000:2504), dually. -/
def newOrExpr {W : Type} : Nat → Nat → Expr W → Expr W → Expr W
  | 0, _, l, r => Expr.eor l r
  | fuel+1, o, l, r =>
    if 1 ≤ o then
      if l.alwaysTrue then l
      else
        match l, r with
        | Expr.efalse, r => r
        | l, Expr.efalse => l
        | l, r =>
          if 2 ≤ o && r.alwaysTrue && l.pureB then r
          else
            match l, r with
            | Expr.enot a, Expr.enot b => newNotExpr fuel o (newAndExpr fuel o a b)
            | l, r => Expr.eor l r
    else Expr.eor l r

end

/-- Translation of `new_comma_expr` (src/unnamed/part_000:2588): at level 1 a
negation on the left has its `not` stripped (the result is ignored), and at
level 2 a pure left operand is dropped entirely. -/
def newCommaExpr {W : Type} (o : Nat) (l r : Expr W) : Expr W :=
  if 1 ≤ o then
    let l2 := match l with
      | Expr.enot x => x
      | l => l
    if 2 ≤ o && l2.pureB then r
    else Expr.ecomma l2 r
  else Expr.ecomma l r

/-- The level-2 while loop of `optimize_whole_expr` (src/unnamed/part_000:2658):
repeatedly strip a pure right operand of a top-level and/or/comma. -/
def stripTop {W : Type} : Expr W → Expr W
  | Expr.eand l r => if r.pureB then stripTop l else Expr.eand l r
  | Expr.eor l r => if r.pureB then stripTop l else Expr.eor l r
  | Expr.ecomma l r => if r.pureB then stripTop l else Expr.ecomma l r
  | e => e

/-- Translation of `optimize_whole_expr`: the level-2 top-level stripping,
then the level-4 replacement of a whole pure expression (other than the false
singleton itself) by the false singleton. -/
def optimizeWholeExpr {W : Type} (o : Nat) (e : Expr W) : Expr W :=
  let e1 := if 2 ≤ o then stripTop e else e
  if 4 ≤ o && e1.pureB && !e1.isEFalse then Expr.efalse else e1

/-- The optimizer as the parser applies it: every operator node of the input
is rebuilt bottom-up through the smart constructors (the parser builds leaves
and combines them with `new_not_expr`/`new_and_expr`/`new_or_expr`/
`new_comma_expr` as it goes). -/
def optimizeExpr {W : Type} (fuel o : Nat) : Expr W → Expr W
  | Expr.enot r => newNotExpr fuel o (optimizeExpr fuel o r)
  | Expr.eand l r => newAndExpr fuel o (optimizeExpr fuel o l) (optimizeExpr fuel o r)
  | Expr.eor l r => newOrExpr fuel o (optimizeExpr fuel o l) (optimizeExpr fuel o r)
  | Expr.ecomma l r => newCommaExpr o (optimizeExpr fuel o l) (optimizeExpr fuel o r)
  | e => e

/-- The whole optimization pipeline on an already-parsed tree: bottom-up
smart constructors, then `optimize_whole_expr`. -/
def optimizePipeline {W : Type} (fuel o : Nat) (e : Expr W) : Expr W :=
  optimizeWholeExpr o (optimizeExpr fuel o e)

/-- An expression none of whose actions can set the quit flag (no `-quit`
inside).  Tests cannot set it by construction. -/
inductive QuitFree {W : Type} : Expr W → Prop where
  | etrue : QuitFree Expr.etrue
  | efalse : QuitFree Expr.efalse
  | test (f : EvalSt W → Bool) : QuitFree (Expr.test f)
  | act (f : EvalSt W → Bool × EvalSt W)
      (h : ∀ s, s.quit = false → ((f s).2).quit = false) : QuitFree (Expr.act f)
  | enot (r : Expr W) (hr : QuitFree r) : QuitFree (Expr.enot r)
  | eand (l r : Expr W) (hl : QuitFree l) (hr : QuitFree r) : QuitFree (Expr.eand l r)
  | eor (l r : Expr W) (hl : QuitFree l) (hr : QuitFree r) : QuitFree (Expr.eor l r)
  | ecomma (l r : Expr W) (hl : QuitFree l) (hr : QuitFree r) : QuitFree (Expr.ecomma l r)

/-! ### Top-level evaluation (src/unnamed/part_000:3956, `eval_cmdline`)

The integration of walker, callback and expression evaluator.  The world an
expression reaches from `struct eval_state` is made concrete: the metadata
record of the current visit, the action field, the shared return code
(`*state->ret`), the output sink, and a count of errors reported to the
error stream (`eval_error` and the regex error path both print and set
`*state->ret = -1`; the count makes "an error was recorded" expressible).
Leaves are drawn from a concrete algebra translated from the `eval_*`
functions the claims touch. -/

/-- The world of the command-line evaluator's expressions. -/
structure C6World where
  visit : Visit
  action : BftwAction
  ret : Int
  out : List (List Nat)
  errs : Nat

/-- The concrete leaves: an arbitrary pure test (any of `eval_type`,
`eval_hidden`, ... — they read the record and return a boolean), the print
action (`eval_fprint`: emit the path, return true), `eval_prune`,
`eval_quit`, and a fallible test modelled from `eval_regex`'s error path
(report the error, set the shared return code to -1, return false). -/
inductive CLeaf : Type where
  | ltest : (Visit → Bool) → CLeaf
  | lprint : CLeaf
  | lprune : CLeaf
  | lquit : CLeaf
  | lerrtest : (Visit → Bool) → (Visit → Bool) → CLeaf

/-- Command-line expressions: the two singletons, leaves, operators. -/
inductive CExpr : Type where
  | ctrue : CExpr
  | cfalse : CExpr
  | leaf : CLeaf → CExpr
  | cnot : CExpr → CExpr
  | cand : CExpr → CExpr → CExpr
  | cor : CExpr → CExpr → CExpr
  | ccomma : CExpr → CExpr → CExpr

/-- Evaluation of a leaf, per the corresponding `eval_*` function:
`eval_prune` sets the action to `BFTW_SKIP_SUBTREE` and returns true;
`eval_quit` (src/unnamed/part_000:3564) sets the action to `BFTW_STOP`, sets
`*state->quit`, and returns true — it does not touch the return code; the
fallible test `lerrtest errP matchP` reports and sets `ret = -1` exactly when
`errP` holds of the visit. -/
def CLeaf.eval : CLeaf → EvalSt C6World → Bool × EvalSt C6World
  | CLeaf.ltest p, s => (p s.world.visit, s)
  | CLeaf.lprint, s =>
    (true, { s with world := { s.world with out := s.world.out ++ [s.world.visit.path] } })
  | CLeaf.lprune, s =>
    (true, { s with world := { s.world with action := BftwAction.skipSubtree } })
  | CLeaf.lquit, s =>
    (true, { s with world := { s.world with action := BftwAction.stop }, quit := true })
  | CLeaf.lerrtest errP mP, s =>
    if errP s.world.visit then
      (false, { s with world := { s.world with ret := -1, errs := s.world.errs + 1 } })
    else (mP s.world.visit, s)

/-- Embedding of command-line expressions into the generic expression type:
pure tests become `test` leaves, the impure leaves become `act` leaves. -/
def CExpr.toExpr : CExpr → Expr C6World
  | CExpr.ctrue => Expr.etrue
  | CExpr.cfalse => Expr.efalse
  | CExpr.leaf (CLeaf.ltest p) => Expr.test (fun s => p s.world.visit)
  | CExpr.leaf l => Expr.act l.eval
  | CExpr.cnot r => Expr.enot r.toExpr
  | CExpr.cand l r => Expr.eand l.toExpr r.toExpr
  | CExpr.cor l r => Expr.eor l.toExpr r.toExpr
  | CExpr.ccomma l r => Expr.ecomma l.toExpr r.toExpr

/-- Whether the expression is the false singleton
(`cmdline->expr->eval == eval_false`). -/
def CExpr.isCFalse : CExpr → Bool
  | CExpr.cfalse => true
  | _ => false

/-- The persistent `struct callback_args`: the eventual return value, the
quit flag, plus the observable streams (output paths and error count). -/
structure CbArgs where
  ret : Int
  quit : Bool
  out : List (List Nat)
  errs : Nat

/-- The parts of `struct cmdline` that `cmdline_callback` and `eval_cmdline`
read in the model. -/
structure CmdlineM where
  expr : CExpr
  optlevel : Nat
  mindepth : Nat
  maxdepth : Nat
  depthFlag : Bool
  roots : List FSObj

/-- Translation of `cmdline_callback` (src/unnamed/part_000:3850): build the
evaluation state; skip the subtree beyond `maxdepth`; in `-depth` mode expect
directories (below `maxdepth`) on their post-order visit; evaluate the
expression only on the expected visit within the depth bounds; return the
action.  (The `BFTW_ERROR` branch is unreachable in the error-free walker
model, and the `xargs_safe` check is not modelled.) -/
def cmdlineCallback (cm : CmdlineM) : CbArgs → Visit → BftwAction × CbArgs :=
  fun args v =>
    let st0 : EvalSt C6World :=
      ⟨⟨v, BftwAction.cont, args.ret, args.out, args.errs⟩, args.quit⟩
    let st1 := if cm.maxdepth ≤ v.path.length then
        { st0 with world := { st0.world with action := BftwAction.skipSubtree } }
      else st0
    let expected := if cm.depthFlag && v.isDir && decide (v.path.length < cm.maxdepth)
      then BftwVisit.post else BftwVisit.pre
    let st2 := if v.visit = expected ∧ cm.mindepth ≤ v.path.length
        ∧ v.path.length ≤ cm.maxdepth
      then (evalExpr cm.expr.toExpr st1).2 else st1
    (st2.world.action, ⟨st2.world.ret, st2.quit, st2.world.out, st2.world.errs⟩)

/-- The root loop of `eval_cmdline`: walk each root while the quit flag is
unset.  (The walker model cannot fail, so the `bftw() != 0` branch is
unreachable; `-exec` buffers are not modelled.) -/
def evalCmdlineRoots (cm : CmdlineM) : List FSObj → CbArgs → CbArgs
  | [], args => args
  | root :: rest, args =>
    if args.quit then args
    else evalCmdlineRoots cm rest (bftwRun (cmdlineCallback cm) cm.depthFlag root args).2

/-- Translation of `eval_cmdline` (src/unnamed/part_000:3956): at level ≥ 4 a
top-level false singleton returns 0 without walking; otherwise walk the roots
and return `args.ret`.  The full final `callback_args` is returned alongside
so the theorems can speak about what was recorded. -/
def evalCmdline (cm : CmdlineM) : Int × CbArgs :=
  if 4 ≤ cm.optlevel && cm.expr.isCFalse then (0, ⟨0, false, [], 0⟩)
  else
    let args := evalCmdlineRoots cm cm.roots ⟨0, false, [], 0⟩
    (args.ret, args)

/-- The C6 record invariant on an evaluation state: the shared return code
is 0 with no errors reported, or -1 with at least one error reported. -/
def InvW (s : EvalSt C6World) : Prop :=
  (s.world.ret = 0 ∧ s.world.errs = 0) ∨ (s.world.ret = -1 ∧ 0 < s.world.errs)

/-- The same invariant on the persistent callback arguments. -/
def InvA (args : CbArgs) : Prop :=
  (args.ret = 0 ∧ args.errs = 0) ∨ (args.ret = -1 ∧ 0 < args.errs)

/-! ### Path-ancestry notions used by the ordering theorems -/

/-- Ancestor-or-equal: `p` is an initial segment of `q` (the node `q` lies in
the subtree rooted at `p`). -/
def Anc (p q : List Nat) : Prop :=
  q.take p.length = p

/-- Strict ancestor: `q` lies strictly below `p`, i.e. `q` is a descendant
of `p`. -/
def SAnc (p q : List Nat) : Prop :=
  Anc p q ∧ p ≠ q

/-- Number of live entries that are direct children of `p`. -/
def childCount (rs : Refs) (p : List Nat) : Nat :=
  (refsKeys rs).countP (fun q => decide (q ≠ [] ∧ q.dropLast = p))

/-- The breadth-first ordering relation claim C1 asserts of consecutive
visits: among pre-order visits, depth never decreases. -/
def DepthMono (a b : Visit) : Prop :=
  a.visit = BftwVisit.pre → b.visit = BftwVisit.pre → a.path.length ≤ b.path.length

/-- The post-order relation claim C2 asserts: once a post-order visit of a
directory has fired, no later visit lies strictly below that directory. -/
def PostAfterDesc (a b : Visit) : Prop :=
  a.visit = BftwVisit.post → ¬ SAnc a.path b.path

/-! ## Theorems -/

/-! ### Small facts about paths and the refcount store -/

/-- Appending distinct child indices yields distinct child paths. -/
theorem pathIdx_inj {cp : List Nat} {i j : Nat} (h : cp ++ [i] = cp ++ [j]) :
    i = j := by
  induction cp with
  | nil => simpa using h
  | cons a l ih =>
    simp only [List.cons_append, List.cons.injEq] at h
    exact ih h.2

/-- A child path differs from its parent. -/
theorem pathIdx_ne {cp : List Nat} {i : Nat} : cp ++ [i] ≠ cp := by
  intro h
  have := congrArg List.length h
  simp at this

/-- `refsSet` does not change which entries are live. -/
theorem refsKeys_refsSet (rs : Refs) (p : List Nat) (m : Nat) :
    refsKeys (refsSet rs p m) = refsKeys rs := by
  induction rs with
  | nil => rfl
  | cons e rs ih =>
    rcases e with ⟨q, n⟩
    simp only [refsSet]
    split <;> simp_all [refsKeys]

/-- Setting a live entry's count stores that count. -/
theorem refsGet_refsSet_self (rs : Refs) (p : List Nat) (m : Nat)
    (hp : p ∈ refsKeys rs) : refsGet (refsSet rs p m) p = m := by
  induction rs with
  | nil => simp [refsKeys] at hp
  | cons e rs ih =>
    rcases e with ⟨q, n⟩
    simp only [refsSet]
    by_cases hq : q = p
    · simp [refsGet, hq]
    · rw [if_neg hq]
      simp only [refsGet, if_neg hq]
      apply ih
      simp only [refsKeys, List.map_cons, List.mem_cons] at hp
      rcases hp with hp | hp
      · exact absurd hp.symm hq
      · exact hp

/-- Setting one entry's count leaves every other count alone. -/
theorem refsGet_refsSet_ne (rs : Refs) (p : List Nat) (m : Nat) (q : List Nat)
    (hne : q ≠ p) : refsGet (refsSet rs p m) q = refsGet rs q := by
  induction rs with
  | nil => rfl
  | cons e rs ih =>
    rcases e with ⟨r, n⟩
    simp only [refsSet]
    by_cases hr : r = p
    · subst hr
      rw [if_pos rfl]
      simp only [refsGet]
      rw [if_neg (fun h => hne h.symm), if_neg (fun h => hne h.symm)]
    · rw [if_neg hr]
      simp only [refsGet]
      split
      · rfl
      · exact ih

/-- Erasing one entry leaves every other count alone. -/
theorem refsGet_refsErase_ne (rs : Refs) (p q : List Nat) (hne : q ≠ p) :
    refsGet (refsErase rs p) q = refsGet rs q := by
  induction rs with
  | nil => rfl
  | cons e rs ih =>
    rcases e with ⟨r, n⟩
    simp only [refsErase]
    by_cases hr : r = p
    · subst hr
      rw [if_pos rfl]
      simp only [refsGet]
      rw [if_neg (fun h => hne h.symm)]
    · rw [if_neg hr]
      simp only [refsGet]
      split
      · rfl
      · exact ih

/-- Live entries after an erasure were live before. -/
theorem refsKeys_refsErase_subset (rs : Refs) (p : List Nat) :
    ∀ q ∈ refsKeys (refsErase rs p), q ∈ refsKeys rs := by
  induction rs with
  | nil => intro q hq; simp [refsErase, refsKeys] at hq
  | cons e rs ih =>
    rcases e with ⟨r, n⟩
    intro q hq
    simp only [refsErase] at hq
    by_cases hr : r = p
    · rw [if_pos hr] at hq
      exact List.mem_cons_of_mem _ hq
    · rw [if_neg hr] at hq
      simp only [refsKeys, List.map_cons, List.mem_cons] at hq ⊢
      rcases hq with hq | hq
      · exact Or.inl hq
      · exact Or.inr (ih q hq)

/-- A live entry other than the erased one stays live. -/
theorem refsKeys_refsErase_mem (rs : Refs) (p q : List Nat) (hne : q ≠ p)
    (hq : q ∈ refsKeys rs) : q ∈ refsKeys (refsErase rs p) := by
  induction rs with
  | nil => simp [refsKeys] at hq
  | cons e rs ih =>
    rcases e with ⟨r, n⟩
    simp only [refsErase]
    simp only [refsKeys, List.map_cons, List.mem_cons] at hq
    by_cases hr : r = p
    · rw [if_pos hr]
      rcases hq with hq | hq
      · subst hr; exact absurd hq hne
      · exact hq
    · rw [if_neg hr]
      simp only [refsKeys, List.map_cons, List.mem_cons]
      rcases hq with hq | hq
      · exact Or.inl hq
      · exact Or.inr (ih hq)

/-- The erased entry is gone when the keys were distinct. -/
theorem refsKeys_refsErase_not_mem (rs : Refs) (p : List Nat)
    (hnd : (refsKeys rs).Nodup) : p ∉ refsKeys (refsErase rs p) := by
  induction rs with
  | nil => simp [refsErase, refsKeys]
  | cons e rs ih =>
    rcases e with ⟨r, n⟩
    simp only [refsKeys, List.map_cons, List.nodup_cons] at hnd
    simp only [refsErase]
    by_cases hr : r = p
    · rw [if_pos hr]
      subst hr
      exact hnd.1
    · rw [if_neg hr]
      simp only [refsKeys, List.map_cons, List.mem_cons]
      intro hc
      rcases hc with hc | hc
      · exact hr hc.symm
      · exact ih hnd.2 hc

/-- Erasure keeps the keys distinct. -/
theorem refsKeys_refsErase_nodup (rs : Refs) (p : List Nat)
    (hnd : (refsKeys rs).Nodup) : (refsKeys (refsErase rs p)).Nodup := by
  induction rs with
  | nil => simpa [refsErase] using hnd
  | cons e rs ih =>
    rcases e with ⟨r, n⟩
    simp only [refsKeys, List.map_cons, List.nodup_cons] at hnd
    simp only [refsErase]
    by_cases hr : r = p
    · rw [if_pos hr]
      exact hnd.2
    · rw [if_neg hr]
      simp only [refsKeys, List.map_cons, List.nodup_cons]
      refine ⟨?_, ih hnd.2⟩
      intro hc
      exact hnd.1 (refsKeys_refsErase_subset rs p r hc)

/-- Erasing a live entry removes exactly its own contribution from any key
count. -/
theorem countP_refsErase (rs : Refs) (p : List Nat) (f : List Nat → Bool)
    (hnd : (refsKeys rs).Nodup) (hp : p ∈ refsKeys rs) :
    (refsKeys (refsErase rs p)).countP f
      = (refsKeys rs).countP f - (if f p then 1 else 0) := by
  induction rs with
  | nil => simp [refsKeys] at hp
  | cons e rs ih =>
    rcases e with ⟨r, n⟩
    simp only [refsKeys, List.map_cons, List.nodup_cons] at hnd
    simp only [refsKeys, List.map_cons, List.mem_cons] at hp
    simp only [refsErase]
    have hcons : ∀ (x : List Nat) (k : Nat) (l : Refs),
        refsKeys ((x, k) :: l) = x :: refsKeys l := fun _ _ _ => rfl
    by_cases hr : r = p
    · rw [if_pos hr]
      subst hr
      rw [hcons, List.countP_cons]
      split <;> omega
    · rw [if_neg hr]
      have hp' : p ∈ refsKeys rs := by
        rcases hp with hp | hp
        · exact absurd hp.symm hr
        · exact hp
      rw [hcons, hcons, List.countP_cons, List.countP_cons, ih hnd.2 hp']
      have : (if f p then 1 else 0) ≤ (refsKeys rs).countP f := by
        split
        · exact List.countP_pos.mpr ⟨p, hp', by assumption⟩
        · omega
      omega

/-! ### The ancestor order on index paths -/

theorem anc_refl (p : List Nat) : Anc p p := by
  simp [Anc]

theorem anc_nil (q : List Nat) : Anc [] q := by
  simp [Anc]

theorem anc_length_le {p q : List Nat} (h : Anc p q) : p.length ≤ q.length := by
  have := congrArg List.length h
  simp only [List.length_take] at this
  omega

theorem anc_eq_of_length_ge {p q : List Nat} (h : Anc p q)
    (hl : q.length ≤ p.length) : p = q := by
  unfold Anc at h
  rw [List.take_of_length_le hl] at h
  exact h.symm

theorem anc_trans {p q r : List Nat} (h1 : Anc p q) (h2 : Anc q r) : Anc p r := by
  have hle := anc_length_le h1
  unfold Anc at *
  calc r.take p.length = (r.take q.length).take p.length := by
        rw [List.take_take, Nat.min_eq_left hle]
    _ = q.take p.length := by rw [h2]
    _ = p := h1

theorem anc_append (p r : List Nat) : Anc p (p ++ r) := by
  simp [Anc, List.take_left]

theorem anc_comparable {p q l : List Nat} (h1 : Anc p l) (h2 : Anc q l)
    (hle : p.length ≤ q.length) : Anc p q := by
  unfold Anc at *
  rw [← h2, List.take_take, Nat.min_eq_left hle, h1]

theorem anc_dropLast {p q : List Nat} (h : Anc p q) (hlt : p.length < q.length) :
    Anc p q.dropLast := by
  unfold Anc at *
  rw [List.dropLast_eq_take, List.take_take, Nat.min_eq_left (by omega), h]

theorem anc_of_dropLast (q : List Nat) : Anc q.dropLast q := by
  unfold Anc
  rw [List.length_dropLast, ← List.dropLast_eq_take]

theorem sanc_length_lt {p q : List Nat} (h : SAnc p q) : p.length < q.length := by
  rcases h with ⟨hanc, hne⟩
  have hle := anc_length_le hanc
  rcases Nat.lt_or_ge p.length q.length with hlt | hge
  · exact hlt
  · exact absurd (anc_eq_of_length_ge hanc hge) hne

theorem sanc_of_child {p q : List Nat} (hq : q ≠ []) (hdl : q.dropLast = p) :
    SAnc p q := by
  refine ⟨hdl ▸ anc_of_dropLast q, ?_⟩
  intro h
  subst hdl
  have := List.length_dropLast q
  have hpos : 0 < q.length := List.length_pos.mpr hq
  have := congrArg List.length h
  omega

/-- A live entry with no live children has no live strict descendants at all,
by walking each candidate's parent chain down (ancestor-closure). -/
theorem no_strict_desc (rs : Refs) (p : List Nat)
    (hac : ∀ q ∈ refsKeys rs, q ≠ [] → q.dropLast ∈ refsKeys rs)
    (hcc : childCount rs p = 0) :
    ∀ q ∈ refsKeys rs, ¬ SAnc p q := by
  suffices key : ∀ n q, q.length = n → q ∈ refsKeys rs → ¬ SAnc p q by
    intro q hq
    exact key q.length q rfl hq
  intro n
  induction n using Nat.strong_induction_on with
  | _ n ih =>
    intro q hlen hq hsanc
    have hlt : p.length < q.length := sanc_length_lt hsanc
    have hqne : q ≠ [] := by
      intro h
      subst h
      simp at hlt
    have hq' : q.dropLast ∈ refsKeys rs := hac q hq hqne
    by_cases hdl : q.dropLast = p
    · have hpos : 0 < (refsKeys rs).countP
          (fun x => decide (x ≠ [] ∧ x.dropLast = p)) :=
        List.countP_pos.mpr ⟨q, hq, by simp [hqne, hdl]⟩
      unfold childCount at hcc
      omega
    · have hql : q.dropLast.length < n := by
        rw [List.length_dropLast]
        have : 0 < q.length := List.length_pos.mpr hqne
        omega
      refine ih q.dropLast.length hql q.dropLast rfl hq' ⟨?_, ?_⟩
      · exact anc_dropLast hsanc.1 hlt
      · intro h
        exact hdl h.symm

/-! ### Characterizing one readdir expansion (src/bftw.c:955) -/

/-- Everything the ordering proofs need to know about expanding the children
of the entry at `cp`: every emitted visit is a pre-order visit of some child
`cp ++ [j]` with `j ≥ i`; every pushed entry is a directory child `cp ++ [j]`
with `j ≥ i`; the pushed paths are pairwise distinct; the live keys afterwards
are the pushed paths (newest first) in front of the old keys; the current
entry's refcount grew by the number of pushes; each pushed entry's refcount
is 1; and every other entry's refcount is unchanged. -/
theorem expandChildren_spec {σ : Type} (cb : σ → Visit → BftwAction × σ)
    (cp : List Nat) (i : Nat) (cs : List FSObj) (rs : Refs) (s : σ) :
    (∀ v ∈ (expandChildren cb cp i cs rs s).evs,
      v.visit = BftwVisit.pre ∧ ∃ j, i ≤ j ∧ v.path = cp ++ [j]) ∧
    (∀ en ∈ (expandChildren cb cp i cs rs s).ents,
      ∃ j, i ≤ j ∧ en.1 = cp ++ [j]) ∧
    ((expandChildren cb cp i cs rs s).ents.map (fun en => en.1)).Nodup ∧
    refsKeys (expandChildren cb cp i cs rs s).refs
      = ((expandChildren cb cp i cs rs s).ents.map (fun en => en.1)).reverse
        ++ refsKeys rs ∧
    (cp ∈ refsKeys rs →
      refsGet (expandChildren cb cp i cs rs s).refs cp
        = refsGet rs cp + (expandChildren cb cp i cs rs s).ents.length) ∧
    (∀ en ∈ (expandChildren cb cp i cs rs s).ents,
      refsGet (expandChildren cb cp i cs rs s).refs en.1 = 1) ∧
    (∀ q : List Nat, q ≠ cp → (∀ j : Nat, i ≤ j → q ≠ cp ++ [j]) →
      refsGet (expandChildren cb cp i cs rs s).refs q = refsGet rs q) := by
  induction cs generalizing i rs s with
  | nil =>
    refine ⟨?_, ?_, ?_, ?_, ?_, ?_, ?_⟩ <;> simp [expandChildren]
  | cons c cs ih =>
    simp only [expandChildren]
    rcases hcb : cb s ⟨cp ++ [i], c.isDir, BftwVisit.pre⟩ with ⟨a, s'⟩
    cases a with
    | stop =>
      dsimp only
      refine ⟨?_, ?_, ?_, ?_, ?_, ?_, ?_⟩ <;> simp
    | skipSiblings =>
      dsimp only
      refine ⟨?_, ?_, ?_, ?_, ?_, ?_, ?_⟩ <;> simp
    | skipSubtree =>
      dsimp only
      obtain ⟨ha, hb, hc, hd, he, hf, hg⟩ := ih (i+1) rs s'
      refine ⟨?_, ?_, hc, hd, he, hf, ?_⟩
      · intro v hv
        simp only [List.mem_cons] at hv
        rcases hv with rfl | hv
        · exact ⟨rfl, i, le_refl i, rfl⟩
        · obtain ⟨h1, j, hj, h2⟩ := ha v hv
          exact ⟨h1, j, by omega, h2⟩
      · intro en hen
        obtain ⟨j, hj, h2⟩ := hb en hen
        exact ⟨j, by omega, h2⟩
      · intro q hq1 hq2
        exact hg q hq1 (fun j hj => hq2 j (by omega))
    | cont =>
      cases c with
      | file =>
        dsimp only
        obtain ⟨ha, hb, hc, hd, he, hf, hg⟩ := ih (i+1) rs s'
        refine ⟨?_, ?_, hc, hd, he, hf, ?_⟩
        · intro v hv
          simp only [List.mem_cons] at hv
          rcases hv with rfl | hv
          · exact ⟨rfl, i, le_refl i, rfl⟩
          · obtain ⟨h1, j, hj, h2⟩ := ha v hv
            exact ⟨h1, j, by omega, h2⟩
        · intro en hen
          obtain ⟨j, hj, h2⟩ := hb en hen
          exact ⟨j, by omega, h2⟩
        · intro q hq1 hq2
          exact hg q hq1 (fun j hj => hq2 j (by omega))
      | dir gs =>
        dsimp only
        obtain ⟨ha, hb, hc, hd, he, hf, hg⟩ :=
          ih (i+1) (((cp ++ [i], 1) : (List Nat) × Nat) ::
            refsSet rs cp (refsGet rs cp + 1)) s'
        have hkeys0 : refsKeys (((cp ++ [i], 1) : (List Nat) × Nat) ::
            refsSet rs cp (refsGet rs cp + 1)) = (cp ++ [i]) :: refsKeys rs := by
          show (cp ++ [i]) :: refsKeys (refsSet rs cp (refsGet rs cp + 1)) = _
          rw [refsKeys_refsSet]
        refine ⟨?_, ?_, ?_, ?_, ?_, ?_, ?_⟩
        · intro v hv
          simp only [List.mem_cons] at hv
          rcases hv with rfl | hv
          · exact ⟨rfl, i, le_refl i, rfl⟩
          · obtain ⟨h1, j, hj, h2⟩ := ha v hv
            exact ⟨h1, j, by omega, h2⟩
        · intro en hen
          simp only [List.mem_cons] at hen
          rcases hen with rfl | hen
          · exact ⟨i, le_refl i, rfl⟩
          · obtain ⟨j, hj, h2⟩ := hb en hen
            exact ⟨j, by omega, h2⟩
        · simp only [List.map_cons, List.nodup_cons]
          refine ⟨?_, hc⟩
          intro hmem
          simp only [List.mem_map] at hmem
          obtain ⟨en, hen, heq⟩ := hmem
          obtain ⟨j, hj, h2⟩ := hb en hen
          rw [h2] at heq
          have := pathIdx_inj heq
          omega
        · rw [hd, hkeys0]
          simp
        · intro hcp
          have hcp' : cp ∈ refsKeys (((cp ++ [i], 1) : (List Nat) × Nat) ::
              refsSet rs cp (refsGet rs cp + 1)) := by
            rw [hkeys0]; exact List.mem_cons_of_mem _ hcp
          have hstep := he hcp'
          rw [hstep]
          have hget : refsGet (((cp ++ [i], 1) : (List Nat) × Nat) ::
              refsSet rs cp (refsGet rs cp + 1)) cp = refsGet rs cp + 1 := by
            simp only [refsGet, if_neg pathIdx_ne]
            exact refsGet_refsSet_self rs cp _ hcp
          rw [hget]
          simp only [List.length_cons]
          omega
        · intro en hen
          simp only [List.mem_cons] at hen
          rcases hen with rfl | hen
          · -- the entry pushed now keeps refcount 1: the recursion at i+1 only
            -- touches cp and paths cp ++ [j] with j > i
            have hstep := hg (cp ++ [i]) pathIdx_ne (fun j hj hcontra => by
              have := pathIdx_inj hcontra
              omega)
            rw [hstep]
            simp [refsGet]
          · exact hf en hen
        · intro q hq1 hq2
          have hstep := hg q hq1 (fun j hj => hq2 j (by omega))
          rw [hstep]
          simp only [refsGet,
            if_neg (fun hcontra : cp ++ [i] = q => (hq2 i (le_refl i)) hcontra.symm)]
          exact refsGet_refsSet_ne rs cp _ q hq1

/-- C7: for every file with an available stat result, the sparseness test
returns true if and only if the file's 512-byte block count times 512 is
strictly less than its byte size (`st_blocks < ceil(st_size / 512)` being the
computed form).  Stat never reports a negative size, hence the hypothesis. -/
theorem evalSparse_iff_blocks_lt_size (stSize stBlocks : Int) (hsz : 0 ≤ stSize) :
    evalSparse stSize stBlocks = true ↔ stBlocks * 512 < stSize := by
  unfold evalSparse
  rw [Int.tdiv_eq_ediv (by omega) (by omega)]
  simp only [decide_eq_true_eq]
  omega

/-- Witness for C7 at a concrete input: a 513-byte file with no blocks is
sparse. -/
theorem evalSparse_iff_blocks_lt_size_witness :
    0 ≤ (513 : Int) ∧ (evalSparse 513 0 = true ↔ (0 : Int) * 512 < 513) :=
  ⟨by decide, evalSparse_iff_blocks_lt_size 513 0 (by decide)⟩

/-- C8 fails on the code: for the root path `".hidden"` the basename begins
with `'.'` and starts at offset 0, yet `eval_hidden` returns false because of
its `nameoff > 0` conjunct. -/
theorem evalHidden_root_counterexample :
    xbasenameOff ".hidden".data = 0 ∧
    (".hidden".data)[xbasenameOff ".hidden".data]? = some '.' ∧
    evalHidden ".hidden".data (xbasenameOff ".hidden".data) = false := by decide

/-- C8 amended: the hidden-name test returns true iff the name offset is
positive and the character there is `'.'`; consequently whenever the name
offset is positive it is exactly the basename-begins-with-dot test, and a
depth-0 path whose basename starts at offset 0 (a root like `".hidden"`)
always tests as not hidden. -/
theorem evalHidden_amended :
    (∀ (p : List Char) (off : Nat), 0 < off →
      (evalHidden p off = true ↔ p[off]? = some '.')) ∧
    (∀ p : List Char, xbasenameOff p = 0 →
      evalHidden p (xbasenameOff p) = false) := by
  constructor
  · intro p off hoff
    simp [evalHidden, hoff]
  · intro p h
    simp [evalHidden, h]

/-- Witness for C8's amended claim at concrete inputs. -/
theorem evalHidden_amended_witness :
    (evalHidden "a/.b".data 2 = true ↔ ("a/.b".data)[2]? = some '.') ∧
    evalHidden ".x".data (xbasenameOff ".x".data) = false :=
  ⟨evalHidden_amended.1 "a/.b".data 2 (by decide),
   evalHidden_amended.2 ".x".data (by decide)⟩

/-- C10 fails on the code in its reporting conjunct: with race-ignoring
enabled, a failed removal with ENOENT at depth 1 returns false but reports
nothing (and leaves the return code untouched). -/
theorem evalDelete_counterexample :
    (evalDelete ⟨['a'], 3, ['a'], TypeFlag.regF, 1⟩ true
        (fun _ _ _ => some ENOENT)).value = false ∧
    (evalDelete ⟨['a'], 3, ['a'], TypeFlag.regF, 1⟩ true
        (fun _ _ _ => some ENOENT)).reported = false ∧
    (evalDelete ⟨['a'], 3, ['a'], TypeFlag.regF, 1⟩ true
        (fun _ _ _ => some ENOENT)).calls.length = 1 := by decide

/-- C10 amended: if the path is exactly `"."` the delete action removes
nothing and evaluates to true; otherwise it calls `unlinkat` exactly once on
`(at_fd, at_path)` with `AT_REMOVEDIR` exactly when the type is directory;
on success it returns true; on failure it returns false after routing the
error through `eval_error`, which reports it (and sets the shared return
code) unless race-ignoring is enabled, the error is ENOENT and the depth is
positive. -/
theorem evalDelete_amended (ftw : DeleteVisit) (ir : Bool)
    (unlink : Int → List Char → Bool → Option Nat) :
    (ftw.path = ['.'] →
      evalDelete ftw ir unlink = ⟨true, [], false, false⟩) ∧
    (ftw.path ≠ ['.'] →
      (evalDelete ftw ir unlink).calls =
        [(ftw.atFd, ftw.atPath, decide (ftw.typeflag = TypeFlag.dirF))] ∧
      (unlink ftw.atFd ftw.atPath (decide (ftw.typeflag = TypeFlag.dirF)) = none →
        evalDelete ftw ir unlink =
          ⟨true, [(ftw.atFd, ftw.atPath, decide (ftw.typeflag = TypeFlag.dirF))],
            false, false⟩) ∧
      (∀ err,
        unlink ftw.atFd ftw.atPath (decide (ftw.typeflag = TypeFlag.dirF)) = some err →
          (evalDelete ftw ir unlink).value = false ∧
          ((evalDelete ftw ir unlink).reported = true ↔
            ¬ (ir = true ∧ err = ENOENT ∧ 0 < ftw.depth)) ∧
          (evalDelete ftw ir unlink).retSet = (evalDelete ftw ir unlink).reported)) := by
  constructor
  · intro h
    simp [evalDelete, h]
  · intro h
    refine ⟨?_, ?_, ?_⟩
    · cases hu : unlink ftw.atFd ftw.atPath (decide (ftw.typeflag = TypeFlag.dirF)) <;>
        simp [evalDelete, if_neg h, hu]
    · intro hu
      simp [evalDelete, if_neg h, hu]
    · intro err hu
      simp only [evalDelete, if_neg h, hu]
      refine ⟨by trivial, ?_, by trivial⟩
      simp only [Bool.not_eq_true', evalShouldIgnore]
      constructor
      · intro hrep hcon
        rcases hcon with ⟨h1, h2, h3⟩
        subst h1
        simp [h2, h3] at hrep
      · intro hni
        by_contra hb
        simp only [Bool.not_eq_false, Bool.and_eq_true, decide_eq_true_eq] at hb
        exact hni ⟨hb.1.1, hb.1.2, hb.2⟩

/-- Witness for C10's amended claim at concrete inputs: deleting `"."` is a
no-op returning true, and a failed removal returns false. -/
theorem evalDelete_amended_witness :
    evalDelete ⟨['.'], 0, ['.'], TypeFlag.dirF, 0⟩ false (fun _ _ _ => none) =
      ⟨true, [], false, false⟩ ∧
    (evalDelete ⟨['b'], 4, ['b'], TypeFlag.dirF, 0⟩ false
      (fun _ _ _ => some 13)).value = false :=
  ⟨(evalDelete_amended ⟨['.'], 0, ['.'], TypeFlag.dirF, 0⟩ false (fun _ _ _ => none)).1 rfl,
   (((evalDelete_amended ⟨['b'], 4, ['b'], TypeFlag.dirF, 0⟩ false
      (fun _ _ _ => some 13)).2 (by decide)).2.2 13 rfl).1⟩

/-- C9: the walker invokes the callback on a defensive copy of the metadata
record, so whatever record the callback hands back, the walker's own state —
its path buffer, current entry, and the saved record with its stat buffer
reference and type flag — is unchanged by `bftw_handle_path`. -/
theorem bftwHandlePath_frame (st : BftwWalkerSt) (fn : BftwFtwbuf → CbRet × BftwFtwbuf) :
    (bftwHandlePath st fn).2.pathBuf = st.pathBuf ∧
    (bftwHandlePath st fn).2.current = st.current ∧
    (bftwHandlePath st fn).2.ftwbuf.statbuf = st.ftwbuf.statbuf ∧
    (bftwHandlePath st fn).2.ftwbuf.typeflag = st.ftwbuf.typeflag ∧
    (bftwHandlePath st fn).2.ftwbuf = st.ftwbuf := by
  unfold bftwHandlePath
  split
  · exact ⟨rfl, rfl, rfl, rfl, rfl⟩
  · cases hr : (fn st.ftwbuf).1 <;> simp [hr]

/-! The main garbage-collection invariant (used by claim C2).  `toks` is the
multiset of paths of the unexpanded queue entries: each holds one reference
("token") on itself.  On entry the chain head `p` additionally holds its own
pending token (the `+1`); the reference-count equation says every live
entry's count is its number of live children plus its tokens.  The chain
frees `p` and then ancestors of `p` while their counts reach zero, so
afterwards the equation holds with tokens only, queue entries survive, every
emitted visit is a post-order visit of a freed entry, and nothing at or
below a freed entry remains live. -/

theorem bftwGcChain_spec {σ : Type} (cb : σ → Visit → BftwAction × σ) :
    ∀ (n : Nat) (p : List Nat) (rs : Refs) (s : σ) (invoke : Bool)
      (toks : List (List Nat)),
      p.length = n →
      (refsKeys rs).Nodup →
      (∀ q ∈ refsKeys rs, q ≠ [] → q.dropLast ∈ refsKeys rs) →
      p ∈ refsKeys rs →
      (∀ q ∈ refsKeys rs, refsGet rs q
        = childCount rs q + toks.count q + (if q = p then 1 else 0)) →
      (∀ t ∈ toks, ¬ Anc t p) →
      (∀ t ∈ toks, t ∈ refsKeys rs) →
      ((refsKeys (bftwGcChain cb p rs s invoke).refs).Nodup ∧
       (∀ q ∈ refsKeys (bftwGcChain cb p rs s invoke).refs, q ≠ [] →
         q.dropLast ∈ refsKeys (bftwGcChain cb p rs s invoke).refs) ∧
       (∀ q ∈ refsKeys (bftwGcChain cb p rs s invoke).refs, q ∈ refsKeys rs) ∧
       (∀ t ∈ toks, t ∈ refsKeys (bftwGcChain cb p rs s invoke).refs) ∧
       (∀ q ∈ refsKeys (bftwGcChain cb p rs s invoke).refs,
         refsGet (bftwGcChain cb p rs s invoke).refs q
           = childCount (bftwGcChain cb p rs s invoke).refs q + toks.count q) ∧
       (∀ v ∈ (bftwGcChain cb p rs s invoke).evs,
         v.visit = BftwVisit.post ∧ Anc v.path p ∧ v.path ∈ refsKeys rs) ∧
       (∀ v ∈ (bftwGcChain cb p rs s invoke).evs,
         ∀ q ∈ refsKeys (bftwGcChain cb p rs s invoke).refs, ¬ Anc v.path q) ∧
       List.Pairwise (fun a b => Anc b.path a.path)
         (bftwGcChain cb p rs s invoke).evs) := by
  intro n
  induction n using Nat.strong_induction_on with
  | _ n ih =>
    intro p rs s invoke toks hlen hnd hac hp hrefeq htnoanc htlive
    have hptok : p ∉ toks := fun hmem => htnoanc p hmem (anc_refl p)
    have hptokc : toks.count p = 0 := List.count_eq_zero.mpr hptok
    have hn := hrefeq p hp
    rw [if_pos rfl, hptokc] at hn
    by_cases hgt : 1 < refsGet rs p
    · -- the decrement leaves a positive count: the chain stops here
      have hres : bftwGcChain cb p rs s invoke
          = ⟨refsSet rs p (refsGet rs p - 1), [], s, false⟩ := by
        rw [bftwGcChain]
        simp only [if_pos hgt]
      rw [hres]
      have hkeys : refsKeys (refsSet rs p (refsGet rs p - 1)) = refsKeys rs :=
        refsKeys_refsSet rs p _
      have hcc : ∀ q, childCount (refsSet rs p (refsGet rs p - 1)) q
          = childCount rs q := by
        intro q
        unfold childCount
        rw [hkeys]
      refine ⟨by rw [hkeys]; exact hnd, ?_, ?_, ?_, ?_, ?_, ?_, ?_⟩
      · intro q hq hqne
        rw [hkeys] at hq ⊢
        exact hac q hq hqne
      · intro q hq
        rw [hkeys] at hq
        exact hq
      · intro t ht
        rw [hkeys]
        exact htlive t ht
      · intro q hq
        rw [hkeys] at hq
        rw [hcc]
        by_cases hqp : q = p
        · subst hqp
          rw [refsGet_refsSet_self rs q _ hq, hptokc]
          omega
        · rw [refsGet_refsSet_ne rs p _ q hqp]
          have := hrefeq q hq
          rw [if_neg hqp] at this
          omega
      · intro v hv
        simp at hv
      · intro v hv
        simp at hv
      · simp
    · -- the count reaches zero: free p, then continue with the parent
      have hcc0 : childCount rs p = 0 := by omega
      have hnodesc := no_strict_desc rs p hac hcc0
      have hpne' : ∀ t ∈ toks, t ≠ p := fun t ht he => hptok (he ▸ ht)
      -- facts about the erased store
      have hsub' := refsKeys_refsErase_subset rs p
      have hnd' := refsKeys_refsErase_nodup rs p hnd
      have hpgone := refsKeys_refsErase_not_mem rs p hnd
      have hmem' : ∀ q ∈ refsKeys rs, q ≠ p → q ∈ refsKeys (refsErase rs p) :=
        fun q hq hqne => refsKeys_refsErase_mem rs p q hqne hq
      have hac' : ∀ q ∈ refsKeys (refsErase rs p), q ≠ [] →
          q.dropLast ∈ refsKeys (refsErase rs p) := by
        intro q hq hqne
        have hq0 := hsub' q hq
        have hdl := hac q hq0 hqne
        apply hmem' _ hdl
        intro hdlp
        exact hnodesc q hq0 (sanc_of_child hqne hdlp)
      have hnoanc' : ∀ q ∈ refsKeys (refsErase rs p), ¬ Anc p q := by
        intro q hq hanc
        by_cases hqp : q = p
        · subst hqp
          exact hpgone hq
        · exact hnodesc q (hsub' q hq) ⟨hanc, fun he => hqp he.symm⟩
      have htlive' : ∀ t ∈ toks, t ∈ refsKeys (refsErase rs p) :=
        fun t ht => hmem' t (htlive t ht) (hpne' t ht)
      have hccer : ∀ q : List Nat, q ≠ p.dropLast →
          childCount (refsErase rs p) q = childCount rs q := by
        intro q hq
        unfold childCount
        rw [countP_refsErase rs p _ hnd hp]
        have hf : decide (p ≠ [] ∧ p.dropLast = q) = false := by
          by_cases hpn : p = []
          · simp [hpn]
          · simp [hpn]
            intro hdq
            exact absurd hdq.symm hq
        rw [hf]
        simp
      by_cases hpnil : p = []
      · -- the chain head is the root: after freeing it the loop ends
        subst hpnil
        have hres : ∀ res : GcRes σ,
            (res = bftwGcChain cb [] rs s invoke) →
            (res.refs = refsErase rs [] ∧
              (res.evs = [⟨[], true, BftwVisit.post⟩] ∨ res.evs = [])) := by
          intro res hresdef
          rw [bftwGcChain] at hresdef
          simp only [if_neg hgt] at hresdef
          by_cases hinv : invoke = true
          · rw [if_pos hinv] at hresdef
            subst hresdef
            exact ⟨rfl, Or.inl rfl⟩
          · rw [if_neg hinv] at hresdef
            subst hresdef
            exact ⟨rfl, Or.inr rfl⟩
        obtain ⟨hrefs, hevs⟩ := hres _ rfl
        have hccr : ∀ q, q ≠ ([] : List Nat).dropLast →
            childCount (refsErase rs []) q = childCount rs q := hccer
        have hfinal5 : ∀ q ∈ refsKeys (bftwGcChain cb [] rs s invoke).refs,
            refsGet (bftwGcChain cb [] rs s invoke).refs q
              = childCount (bftwGcChain cb [] rs s invoke).refs q + toks.count q := by
          intro q hq
          rw [hrefs] at hq ⊢
          have hq0 := hsub' q hq
          have hqne : q ≠ [] := by
            intro he
            subst he
            exact hpgone hq
          rw [refsGet_refsErase_ne rs [] q hqne]
          have heq := hrefeq q hq0
          rw [if_neg hqne] at heq
          have hccq : childCount (refsErase rs []) q = childCount rs q := by
            unfold childCount
            rw [countP_refsErase rs [] _ hnd hp]
            simp
          rw [hccq]
          omega
        refine ⟨by rw [hrefs]; exact hnd', ?_, ?_, ?_, hfinal5, ?_, ?_, ?_⟩
        · intro q hq hqne
          rw [hrefs] at hq ⊢
          exact hac' q hq hqne
        · intro q hq
          rw [hrefs] at hq
          exact hsub' q hq
        · intro t ht
          rw [hrefs]
          exact htlive' t ht
        · intro v hv
          rcases hevs with hevs | hevs <;> rw [hevs] at hv
          · simp at hv
            subst hv
            exact ⟨rfl, anc_refl [], hp⟩
          · simp at hv
        · intro v hv q hq
          rw [hrefs] at hq
          rcases hevs with hevs | hevs <;> rw [hevs] at hv
          · simp at hv
            subst hv
            exact hnoanc' q hq
          · simp at hv
        · rcases hevs with hevs | hevs <;> rw [hevs] <;> simp
      · -- recurse on the parent
        have hdlmem : p.dropLast ∈ refsKeys rs := hac p hp hpnil
        have hdlne : p.dropLast ≠ p := by
          intro he
          have h1 := List.length_dropLast p
          have h2 : 0 < p.length := List.length_pos.mpr hpnil
          have := congrArg List.length he
          omega
        have hdlmem' : p.dropLast ∈ refsKeys (refsErase rs p) :=
          hmem' _ hdlmem hdlne
        have hchildp : 0 < childCount rs p.dropLast := by
          unfold childCount
          exact List.countP_pos.mpr ⟨p, hp, by simp [hpnil]⟩
        have hrefeq' : ∀ q ∈ refsKeys (refsErase rs p),
            refsGet (refsErase rs p) q = childCount (refsErase rs p) q
              + toks.count q + (if q = p.dropLast then 1 else 0) := by
          intro q hq
          have hq0 := hsub' q hq
          have hqnep : q ≠ p := by
            intro he
            subst he
            exact hpgone hq
          rw [refsGet_refsErase_ne rs p q hqnep]
          have heq := hrefeq q hq0
          rw [if_neg hqnep] at heq
          by_cases hqdl : q = p.dropLast
          · subst hqdl
            have : childCount (refsErase rs p) p.dropLast
                = childCount rs p.dropLast - 1 := by
              unfold childCount
              rw [countP_refsErase rs p _ hnd hp]
              have hf : decide (p ≠ [] ∧ p.dropLast = p.dropLast) = true := by
                simp [hpnil]
              rw [hf]
              simp
            rw [this, if_pos rfl]
            omega
          · rw [hccer q hqdl, if_neg hqdl]
            omega
        have htnoanc' : ∀ t ∈ toks, ¬ Anc t p.dropLast := by
          intro t ht hanc
          exact htnoanc t ht (anc_trans hanc (anc_of_dropLast p))
        have hihlen : p.dropLast.length < n := by
          rw [List.length_dropLast]
          have : 0 < p.length := List.length_pos.mpr hpnil
          omega
        -- the two recursion shapes (with and without the callback)
        rcases hcb : cb s ⟨p, true, BftwVisit.post⟩ with ⟨a, s2⟩
        have main : ∀ (s3 : σ) (inv3 : Bool) (pre : List Visit),
            (pre = [] ∨ pre = [⟨p, true, BftwVisit.post⟩]) →
            (∀ v ∈ pre, v.path = p ∧ v.visit = BftwVisit.post) →
            ((refsKeys (bftwGcChain cb p.dropLast (refsErase rs p) s3 inv3).refs).Nodup ∧
             (∀ q ∈ refsKeys (bftwGcChain cb p.dropLast (refsErase rs p) s3 inv3).refs,
               q ≠ [] → q.dropLast ∈
                 refsKeys (bftwGcChain cb p.dropLast (refsErase rs p) s3 inv3).refs) ∧
             (∀ q ∈ refsKeys (bftwGcChain cb p.dropLast (refsErase rs p) s3 inv3).refs,
               q ∈ refsKeys rs) ∧
             (∀ t ∈ toks, t ∈
               refsKeys (bftwGcChain cb p.dropLast (refsErase rs p) s3 inv3).refs) ∧
             (∀ q ∈ refsKeys (bftwGcChain cb p.dropLast (refsErase rs p) s3 inv3).refs,
               refsGet (bftwGcChain cb p.dropLast (refsErase rs p) s3 inv3).refs q
                 = childCount (bftwGcChain cb p.dropLast (refsErase rs p) s3 inv3).refs q
                   + toks.count q) ∧
             (∀ v ∈ pre ++ (bftwGcChain cb p.dropLast (refsErase rs p) s3 inv3).evs,
               v.visit = BftwVisit.post ∧ Anc v.path p ∧ v.path ∈ refsKeys rs) ∧
             (∀ v ∈ pre ++ (bftwGcChain cb p.dropLast (refsErase rs p) s3 inv3).evs,
               ∀ q ∈ refsKeys (bftwGcChain cb p.dropLast (refsErase rs p) s3 inv3).refs,
                 ¬ Anc v.path q) ∧
             List.Pairwise (fun a b => Anc b.path a.path)
               (pre ++ (bftwGcChain cb p.dropLast (refsErase rs p) s3 inv3).evs)) := by
          intro s3 inv3 pre hpreshape hpre
          obtain ⟨c1, c2, c3, c4, c5, c6, c7, c8⟩ :=
            ih p.dropLast.length hihlen p.dropLast (refsErase rs p) s3 inv3 toks rfl
              hnd' hac' hdlmem' hrefeq' htnoanc' htlive'
          have hsub3 : ∀ q ∈ refsKeys
              (bftwGcChain cb p.dropLast (refsErase rs p) s3 inv3).refs,
              q ∈ refsKeys rs := fun q hq => hsub' q (c3 q hq)
          refine ⟨c1, c2, hsub3, c4, c5, ?_, ?_, ?_⟩
          · intro v hv
            rcases List.mem_append.mp hv with hv | hv
            · obtain ⟨hvp, hvv⟩ := hpre v hv
              exact ⟨hvv, hvp ▸ anc_refl p, hvp ▸ hp⟩
            · obtain ⟨hvv, hvanc, hvmem⟩ := c6 v hv
              exact ⟨hvv, anc_trans hvanc (anc_of_dropLast p), hsub' _ hvmem⟩
          · intro v hv q hq
            rcases List.mem_append.mp hv with hv | hv
            · obtain ⟨hvp, _⟩ := hpre v hv
              rw [hvp]
              intro hanc
              exact hnoanc' q (c3 q hq) hanc
            · exact c7 v hv q hq
          · rw [List.pairwise_append]
            refine ⟨?_, c8, ?_⟩
            · rcases hpreshape with rfl | rfl
              · simp
              · simp
            · intro a ha b hb
              obtain ⟨hap, _⟩ := hpre a ha
              obtain ⟨_, hbanc, _⟩ := c6 b hb
              rw [hap]
              exact anc_trans hbanc (anc_of_dropLast p)
        have hres : bftwGcChain cb p rs s invoke
            = if invoke then
                ⟨(bftwGcChain cb p.dropLast (refsErase rs p) s2
                    (!decide (a = BftwAction.stop))).refs,
                  ⟨p, true, BftwVisit.post⟩ ::
                    (bftwGcChain cb p.dropLast (refsErase rs p) s2
                      (!decide (a = BftwAction.stop))).evs,
                  (bftwGcChain cb p.dropLast (refsErase rs p) s2
                    (!decide (a = BftwAction.stop))).st,
                  (decide (a = BftwAction.stop) ||
                    (bftwGcChain cb p.dropLast (refsErase rs p) s2
                      (!decide (a = BftwAction.stop))).stopRet)⟩
              else bftwGcChain cb p.dropLast (refsErase rs p) s false := by
          rw [bftwGcChain]
          simp only [if_neg hgt, hcb, if_neg hpnil]
        by_cases hinv : invoke = true
        · subst hinv
          rw [if_pos rfl] at hres
          rw [hres]
          have := main s2 (!decide (a = BftwAction.stop))
            [⟨p, true, BftwVisit.post⟩] (Or.inr rfl) (by simp)
          simpa using this
        · rw [if_neg hinv] at hres
          rw [hres]
          have := main s false [] (Or.inl rfl) (by simp)
          simpa using this


/-! ### Small facts about the chain and loop visits -/

/-- Every visit the garbage-collection chain emits is a post-order visit of a
directory (translated from `bftw_gc`: the record is rebuilt with
`BFTW_POST`, and only directories have cache entries). -/
theorem bftwGcChain_evs_post {σ : Type} (cb : σ → Visit → BftwAction × σ) :
    ∀ (n : Nat) (p : List Nat) (rs : Refs) (s : σ) (invoke : Bool),
      p.length = n →
      ∀ v ∈ (bftwGcChain cb p rs s invoke).evs,
        v.visit = BftwVisit.post ∧ v.isDir = true := by
  intro n
  induction n using Nat.strong_induction_on with
  | _ n ih =>
    intro p rs s invoke hlen v hv
    rw [bftwGcChain] at hv
    by_cases hgt : 1 < refsGet rs p
    · simp only [if_pos hgt] at hv
      simp at hv
    · simp only [if_neg hgt] at hv
      have hrec : ∀ (s2 : σ) (inv2 : Bool),
          v ∈ (bftwGcChain cb p.dropLast (refsErase rs p) s2 inv2).evs →
          p ≠ [] →
          v.visit = BftwVisit.post ∧ v.isDir = true := by
        intro s2 inv2 hv2 hpnil
        have h0 : 0 < p.length := List.length_pos.mpr hpnil
        exact ih p.dropLast.length
          (by rw [List.length_dropLast]; omega)
          p.dropLast (refsErase rs p) s2 inv2 rfl v hv2
      by_cases hinv : invoke = true
      · rw [if_pos hinv] at hv
        by_cases hpnil : p = []
        · rw [if_pos hpnil] at hv
          simp only [List.mem_singleton] at hv
          subst hv
          exact ⟨rfl, rfl⟩
        · rw [if_neg hpnil] at hv
          simp only [List.mem_cons] at hv
          rcases hv with rfl | hv
          · exact ⟨rfl, rfl⟩
          · exact hrec _ _ hv hpnil
      · rw [if_neg hinv] at hv
        by_cases hpnil : p = []
        · rw [if_pos hpnil] at hv
          simp at hv
        · rw [if_neg hpnil] at hv
          exact hrec _ _ hv hpnil

/-- With post-order callbacks disabled the chain emits no visits at all. -/
theorem bftwGcChain_false_evs {σ : Type} (cb : σ → Visit → BftwAction × σ) :
    ∀ (n : Nat) (p : List Nat) (rs : Refs) (s : σ),
      p.length = n → (bftwGcChain cb p rs s false).evs = [] := by
  intro n
  induction n using Nat.strong_induction_on with
  | _ n ih =>
    intro p rs s hlen
    rw [bftwGcChain]
    by_cases hgt : 1 < refsGet rs p
    · rw [if_pos hgt]
    · rw [if_neg hgt, if_neg (by simp)]
      by_cases hpnil : p = []
      · rw [if_pos hpnil]
      · rw [if_neg hpnil]
        have h0 : 0 < p.length := List.length_pos.mpr hpnil
        exact ih p.dropLast.length
          (by rw [List.length_dropLast]; omega)
          p.dropLast (refsErase rs p) s rfl

/-- Breadth-first ordering through the main loop (claim C1): when the
FIFO queue's entries all lie at the current entry's depth or one deeper,
depths monotone along the queue, then every pre-order visit the loop emits
is strictly deeper than the current entry, and depths of pre-order visits
never decrease along the emitted visit list. -/
theorem bftwLoop_depth_spec {σ : Type} (cb : σ → Visit → BftwAction × σ)
    (depthFlag : Bool) :
    ∀ (w : Nat) (cur : EntT) (queue : List EntT) (rs : Refs) (s : σ),
      entSize cur + (queue.map entSize).sum = w →
      (∀ e ∈ queue, cur.1.length ≤ e.1.length ∧ e.1.length ≤ cur.1.length + 1) →
      List.Pairwise (fun a b : EntT => a.1.length ≤ b.1.length) queue →
      (List.Pairwise DepthMono (bftwLoop cb depthFlag cur queue rs s).1 ∧
       ∀ v ∈ (bftwLoop cb depthFlag cur queue rs s).1,
         v.visit = BftwVisit.pre → cur.1.length + 1 ≤ v.path.length) := by
  intro w
  induction w using Nat.strong_induction_on with
  | _ w ih =>
    intro cur queue rs s hw hq hsort
    obtain ⟨e1, e2, e3, e4, e5, e6, e7⟩ :=
      expandChildren_spec cb cur.1 0 cur.2 rs s
    -- facts about the expansion's visits
    have hepre : ∀ v ∈ (expandChildren cb cur.1 0 cur.2 rs s).evs,
        v.visit = BftwVisit.pre ∧ v.path.length = cur.1.length + 1 := by
      intro v hv
      obtain ⟨h1, j, _, h2⟩ := e1 v hv
      refine ⟨h1, ?_⟩
      rw [h2]
      simp
    have hepair : List.Pairwise DepthMono
        (expandChildren cb cur.1 0 cur.2 rs s).evs := by
      refine List.pairwise_of_forall_mem_list ?_
      intro a ha b hb _ _
      rw [(hepre a ha).2, (hepre b hb).2]
    have hgpost : ∀ (rs2 : Refs) (s2 : σ),
        ∀ v ∈ (bftwGc cb depthFlag cur.1 rs2 s2 true).evs,
          v.visit = BftwVisit.post := by
      intro rs2 s2 v hv
      exact (bftwGcChain_evs_post cb cur.1.length cur.1 rs2 s2
        (true && depthFlag) rfl v hv).1
    have hgpair : ∀ (rs2 : Refs) (s2 : σ),
        List.Pairwise DepthMono (bftwGc cb depthFlag cur.1 rs2 s2 true).evs := by
      intro rs2 s2
      refine List.pairwise_of_forall_mem_list ?_
      intro a ha _ _ hapre _
      rw [hgpost rs2 s2 a ha] at hapre
      cases hapre
    have hegpair : List.Pairwise DepthMono
        ((expandChildren cb cur.1 0 cur.2 rs s).evs ++
          (bftwGc cb depthFlag cur.1
            (expandChildren cb cur.1 0 cur.2 rs s).refs
            (expandChildren cb cur.1 0 cur.2 rs s).st true).evs) := by
      rw [List.pairwise_append]
      refine ⟨hepair, hgpair _ _, ?_⟩
      intro a _ b hb _ hbpre
      rw [hgpost _ _ b hb] at hbpre
      cases hbpre
    have hegmem : ∀ v ∈ ((expandChildren cb cur.1 0 cur.2 rs s).evs ++
          (bftwGc cb depthFlag cur.1
            (expandChildren cb cur.1 0 cur.2 rs s).refs
            (expandChildren cb cur.1 0 cur.2 rs s).st true).evs),
        v.visit = BftwVisit.pre → cur.1.length + 1 ≤ v.path.length := by
      intro v hv hvpre
      rcases List.mem_append.mp hv with hv | hv
      · rw [(hepre v hv).2]
      · rw [hgpost _ _ v hv] at hvpre
        cases hvpre
    rw [bftwLoop]
    by_cases hstop : (expandChildren cb cur.1 0 cur.2 rs s).stopped = true
    · simp only [if_pos hstop]
      refine ⟨hepair, ?_⟩
      intro v hv hvpre
      rw [(hepre v hv).2]
    · simp only [if_neg hstop]
      by_cases hgstop : (bftwGc cb depthFlag cur.1
          (expandChildren cb cur.1 0 cur.2 rs s).refs
          (expandChildren cb cur.1 0 cur.2 rs s).st true).stopRet = true
      · simp only [if_pos hgstop]
        exact ⟨hegpair, hegmem⟩
      · simp only [if_neg hgstop]
        split
        · exact ⟨hegpair, hegmem⟩
        · rename_i nxt rest heq
          -- the combined pending list is depth-sorted and windowed
          have hentlen : ∀ en ∈ (expandChildren cb cur.1 0 cur.2 rs s).ents,
              en.1.length = cur.1.length + 1 := by
            intro en hen
            obtain ⟨j, _, h2⟩ := e2 en hen
            rw [h2]
            simp
          have hwin : ∀ e ∈ queue ++ (expandChildren cb cur.1 0 cur.2 rs s).ents,
              cur.1.length ≤ e.1.length ∧ e.1.length ≤ cur.1.length + 1 := by
            intro e he
            rcases List.mem_append.mp he with he | he
            · exact hq e he
            · rw [hentlen e he]
              omega
          have hsort2 : List.Pairwise (fun a b : EntT => a.1.length ≤ b.1.length)
              (queue ++ (expandChildren cb cur.1 0 cur.2 rs s).ents) := by
            rw [List.pairwise_append]
            refine ⟨hsort, ?_, ?_⟩
            · refine List.pairwise_of_forall_mem_list ?_
              intro a ha b hb
              rw [hentlen a ha, hentlen b hb]
            · intro a ha b hb
              rw [hentlen b hb]
              exact (hq a ha).2
          rw [heq] at hwin hsort2
          have hnxtwin := hwin nxt (List.mem_cons_self _ _)
          have hrestwin : ∀ e ∈ rest,
              nxt.1.length ≤ e.1.length ∧ e.1.length ≤ nxt.1.length + 1 := by
            intro e he
            refine ⟨(List.pairwise_cons.mp hsort2).1 e he, ?_⟩
            have := (hwin e (List.mem_cons_of_mem _ he)).2
            omega
          have hrestsort := (List.pairwise_cons.mp hsort2).2
          -- the measure shrinks
          have hsum : ((nxt :: rest).map entSize).sum
              = ((queue.map entSize).sum)
                + (((expandChildren cb cur.1 0 cur.2 rs s).ents.map entSize).sum) := by
            rw [← heq]
            simp
          have hb := expandChildren_ents_size cb cur.1 0 cur.2 rs s
          have hless : entSize nxt + (rest.map entSize).sum < w := by
            simp only [List.map_cons, List.sum_cons] at hsum
            simp only [entSize] at hsum hb hw ⊢
            omega
          obtain ⟨hr1, hr2⟩ := ih _ hless nxt rest
            (bftwGc cb depthFlag cur.1
              (expandChildren cb cur.1 0 cur.2 rs s).refs
              (expandChildren cb cur.1 0 cur.2 rs s).st true).refs
            (bftwGc cb depthFlag cur.1
              (expandChildren cb cur.1 0 cur.2 rs s).refs
              (expandChildren cb cur.1 0 cur.2 rs s).st true).st
            rfl hrestwin hrestsort
          constructor
          · rw [List.pairwise_append]
            refine ⟨hegpair, hr1, ?_⟩
            intro a ha b hb hapre hbpre
            rcases List.mem_append.mp ha with ha | ha
            · rw [(hepre a ha).2]
              have := hr2 b hb hbpre
              omega
            · rw [hgpost _ _ a ha] at hapre
              cases hapre
          · intro v hv hvpre
            rcases List.mem_append.mp hv with hv | hv
            · exact hegmem v hv hvpre
            · have := hr2 v hv hvpre
              omega

/-- **C1.** Strict breadth-first order: in any walk, depth (the index path's
length) never decreases along the sequence of pre-order callbacks, i.e. for
every two pre-order visits A and B with depth(A) < depth(B), A's callback is
invoked before B's (`DepthMono` holds of every ordered pair of emitted
visits). -/
theorem bftw_breadth_first {σ : Type} (cb : σ → Visit → BftwAction × σ)
    (depthFlag : Bool) (root : FSObj) (s0 : σ) :
    List.Pairwise DepthMono (bftwRun cb depthFlag root s0).1 := by
  unfold bftwRun
  rcases hcb : cb s0 ⟨[], root.isDir, BftwVisit.pre⟩ with ⟨a, s'⟩
  simp only [hcb]
  have hroot : ∀ cs,
      List.Pairwise DepthMono
        ((⟨[], root.isDir, BftwVisit.pre⟩ : Visit) ::
          (bftwLoop cb depthFlag ([], cs) [] [([], 1)] s').1) := by
    intro cs
    obtain ⟨h1, _⟩ := bftwLoop_depth_spec cb depthFlag _ ([], cs) [] [([], 1)] s'
      rfl (by simp) (by simp)
    exact List.pairwise_cons.mpr ⟨fun b hb _ _ => Nat.zero_le _, h1⟩
  cases a with
  | skipSubtree => exact List.pairwise_singleton _ _
  | stop => exact List.pairwise_singleton _ _
  | skipSiblings =>
    cases root with
    | file => exact List.pairwise_singleton _ _
    | dir cs => exact hroot cs
  | cont =>
    cases root with
    | file => exact List.pairwise_singleton _ _
    | dir cs => exact hroot cs

/-- Without the depth-first flag, every visit the loop emits is pre-order. -/
theorem bftwLoop_noflag_pre {σ : Type} (cb : σ → Visit → BftwAction × σ) :
    ∀ (w : Nat) (cur : EntT) (queue : List EntT) (rs : Refs) (s : σ),
      entSize cur + (queue.map entSize).sum = w →
      ∀ v ∈ (bftwLoop cb false cur queue rs s).1, v.visit = BftwVisit.pre := by
  intro w
  induction w using Nat.strong_induction_on with
  | _ w ih =>
    intro cur queue rs s hw
    obtain ⟨e1, e2, e3, e4, e5, e6, e7⟩ :=
      expandChildren_spec cb cur.1 0 cur.2 rs s
    have hgnil : ∀ (rs2 : Refs) (s2 : σ),
        (bftwGc cb false cur.1 rs2 s2 true).evs = [] := by
      intro rs2 s2
      exact bftwGcChain_false_evs cb cur.1.length cur.1 rs2 s2 rfl
    rw [bftwLoop]
    by_cases hstop : (expandChildren cb cur.1 0 cur.2 rs s).stopped = true
    · simp only [if_pos hstop]
      intro v hv
      exact (e1 v hv).1
    · simp only [if_neg hstop]
      by_cases hgstop : (bftwGc cb false cur.1
          (expandChildren cb cur.1 0 cur.2 rs s).refs
          (expandChildren cb cur.1 0 cur.2 rs s).st true).stopRet = true
      · simp only [if_pos hgstop]
        intro v hv
        rw [hgnil] at hv
        rcases List.mem_append.mp hv with hv | hv
        · exact (e1 v hv).1
        · simp at hv
      · simp only [if_neg hgstop]
        split
        · intro v hv
          rw [hgnil] at hv
          rcases List.mem_append.mp hv with hv | hv
          · exact (e1 v hv).1
          · simp at hv
        · rename_i nxt rest heq
          have hsum : ((nxt :: rest).map entSize).sum
              = ((queue.map entSize).sum)
                + (((expandChildren cb cur.1 0 cur.2 rs s).ents.map entSize).sum) := by
            rw [← heq]
            simp
          have hb := expandChildren_ents_size cb cur.1 0 cur.2 rs s
          have hless : entSize nxt + (rest.map entSize).sum < w := by
            simp only [List.map_cons, List.sum_cons] at hsum
            simp only [entSize] at hsum hb hw ⊢
            omega
          intro v hv
          rcases List.mem_append.mp hv with hv | hv
          · rw [hgnil] at hv
            rcases List.mem_append.mp hv with hv | hv
            · exact (e1 v hv).1
            · simp at hv
          · exact ih _ hless nxt rest _ _ rfl v hv

/-- Every visit the loop emits is a pre-order visit or a post-order visit of
a directory. -/
theorem bftwLoop_visits {σ : Type} (cb : σ → Visit → BftwAction × σ)
    (depthFlag : Bool) :
    ∀ (w : Nat) (cur : EntT) (queue : List EntT) (rs : Refs) (s : σ),
      entSize cur + (queue.map entSize).sum = w →
      ∀ v ∈ (bftwLoop cb depthFlag cur queue rs s).1,
        v.visit = BftwVisit.pre ∨ v.isDir = true := by
  intro w
  induction w using Nat.strong_induction_on with
  | _ w ih =>
    intro cur queue rs s hw
    obtain ⟨e1, e2, e3, e4, e5, e6, e7⟩ :=
      expandChildren_spec cb cur.1 0 cur.2 rs s
    have hg : ∀ (rs2 : Refs) (s2 : σ),
        ∀ v ∈ (bftwGc cb depthFlag cur.1 rs2 s2 true).evs, v.isDir = true := by
      intro rs2 s2 v hv
      exact (bftwGcChain_evs_post cb cur.1.length cur.1 rs2 s2
        (true && depthFlag) rfl v hv).2
    rw [bftwLoop]
    by_cases hstop : (expandChildren cb cur.1 0 cur.2 rs s).stopped = true
    · simp only [if_pos hstop]
      intro v hv
      exact Or.inl (e1 v hv).1
    · simp only [if_neg hstop]
      by_cases hgstop : (bftwGc cb depthFlag cur.1
          (expandChildren cb cur.1 0 cur.2 rs s).refs
          (expandChildren cb cur.1 0 cur.2 rs s).st true).stopRet = true
      · simp only [if_pos hgstop]
        intro v hv
        rcases List.mem_append.mp hv with hv | hv
        · exact Or.inl (e1 v hv).1
        · exact Or.inr (hg _ _ v hv)
      · simp only [if_neg hgstop]
        split
        · intro v hv
          rcases List.mem_append.mp hv with hv | hv
          · exact Or.inl (e1 v hv).1
          · exact Or.inr (hg _ _ v hv)
        · rename_i nxt rest heq
          have hsum : ((nxt :: rest).map entSize).sum
              = ((queue.map entSize).sum)
                + (((expandChildren cb cur.1 0 cur.2 rs s).ents.map entSize).sum) := by
            rw [← heq]
            simp
          have hb := expandChildren_ents_size cb cur.1 0 cur.2 rs s
          have hless : entSize nxt + (rest.map entSize).sum < w := by
            simp only [List.map_cons, List.sum_cons] at hsum
            simp only [entSize] at hsum hb hw ⊢
            omega
          intro v hv
          rcases List.mem_append.mp hv with hv | hv
          · rcases List.mem_append.mp hv with hv | hv
            · exact Or.inl (e1 v hv).1
            · exact Or.inr (hg _ _ v hv)
          · exact ih _ hless nxt rest _ _ rfl v hv

/-- A list with pairwise-distinct members contains each member exactly
once. -/
theorem count_one_of_nodup_mem (l : List (List Nat)) (a : List Nat)
    (hd : l.Nodup) (ha : a ∈ l) : l.count a = 1 := by
  induction l with
  | nil => simp at ha
  | cons x l ih =>
    rw [List.count_cons]
    rcases List.mem_cons.mp ha with rfl | ha
    · have h0 : l.count a = 0 := List.count_eq_zero.mpr (List.nodup_cons.mp hd).1
      simp [h0]
    · have hne : a ≠ x := fun h => (List.nodup_cons.mp hd).1 (h ▸ ha)
      simp [Ne.symm hne, ih (List.nodup_cons.mp hd).2 ha]

/-- The post-order invariants through the main loop (claim C2): the current
entry and each queued entry hold one reference ("token") on themselves;
given the cache invariants — distinct live keys closed under parent, pending
entries live, the reference-count equation, pending paths forming an
antichain, and no live entry strictly below a pending one — no visit the
loop emits after a post-order visit lies strictly inside that directory's
subtree, and every emitted visit lies below a pending entry or at an
already-live entry. -/
theorem bftwLoop_post_spec {σ : Type} (cb : σ → Visit → BftwAction × σ)
    (depthFlag : Bool) :
    ∀ (w : Nat) (cur : EntT) (queue : List EntT) (rs : Refs) (s : σ),
      entSize cur + (queue.map entSize).sum = w →
      (refsKeys rs).Nodup →
      (∀ q ∈ refsKeys rs, q ≠ [] → q.dropLast ∈ refsKeys rs) →
      cur.1 ∈ refsKeys rs →
      (∀ e ∈ queue, e.1 ∈ refsKeys rs) →
      (∀ q ∈ refsKeys rs,
        refsGet rs q = childCount rs q
          + ((cur.1 :: queue.map Prod.fst).count q)) →
      List.Pairwise (fun a b : List Nat => ¬ Anc a b ∧ ¬ Anc b a)
        (cur.1 :: queue.map Prod.fst) →
      (∀ q ∈ refsKeys rs, ∀ t ∈ cur.1 :: queue.map Prod.fst, ¬ SAnc t q) →
      (List.Pairwise PostAfterDesc (bftwLoop cb depthFlag cur queue rs s).1 ∧
       ∀ v ∈ (bftwLoop cb depthFlag cur queue rs s).1,
         (∃ t ∈ cur.1 :: queue.map Prod.fst, Anc t v.path) ∨
           v.path ∈ refsKeys rs) := by
  intro w
  induction w using Nat.strong_induction_on with
  | _ w ih =>
    intro cur queue rs s hw hnd hac hcur hqmem hrefeq hanti hz
    obtain ⟨e1, e2, e3, e4, e5, e6, e7⟩ :=
      expandChildren_spec cb cur.1 0 cur.2 rs s
    have hmapeq :
        (expandChildren cb cur.1 0 cur.2 rs s).ents.map
            (fun en : EntT => en.1)
          = (expandChildren cb cur.1 0 cur.2 rs s).ents.map Prod.fst := rfl
    have hK : ∀ x ∈ (expandChildren cb cur.1 0 cur.2 rs s).ents.map Prod.fst,
        ∃ j : Nat, x = cur.1 ++ [j] := by
      intro x hx
      obtain ⟨en, hen, hx⟩ := List.mem_map.mp hx
      obtain ⟨j, _, hj⟩ := e2 en hen
      exact ⟨j, by rw [← hx]; exact hj⟩
    have hanti_head : ∀ t ∈ queue.map Prod.fst, ¬ Anc cur.1 t ∧ ¬ Anc t cur.1 :=
      (List.pairwise_cons.mp hanti).1
    have hanti_tail := (List.pairwise_cons.mp hanti).2
    have hz_head : ∀ q ∈ refsKeys rs, ¬ SAnc cur.1 q := by
      intro q hq
      exact hz q hq cur.1 (List.mem_cons_self _ _)
    have hKnotin : ∀ x ∈ (expandChildren cb cur.1 0 cur.2 rs s).ents.map Prod.fst,
        x ∉ refsKeys rs := by
      intro x hx hmem
      obtain ⟨j, rfl⟩ := hK x hx
      exact hz_head _ hmem ⟨anc_append _ _, fun h => pathIdx_ne h.symm⟩
    have hnolive_below : ∀ r ∈ refsKeys rs,
        ∀ x ∈ (expandChildren cb cur.1 0 cur.2 rs s).ents.map Prod.fst,
        ¬ Anc x r := by
      intro r hr x hx hancxr
      obtain ⟨j, rfl⟩ := hK x hx
      have h1 : Anc cur.1 r := anc_trans (anc_append _ _) hancxr
      have h2 : r ≠ cur.1 := by
        intro h
        subst h
        have := anc_length_le hancxr
        simp at this
      exact hz_head r hr ⟨h1, fun h => h2 h.symm⟩
    have hkeysE : refsKeys (expandChildren cb cur.1 0 cur.2 rs s).refs
        = ((expandChildren cb cur.1 0 cur.2 rs s).ents.map Prod.fst).reverse
          ++ refsKeys rs := by
      rw [← hmapeq]
      exact e4
    have hKnodup :
        ((expandChildren cb cur.1 0 cur.2 rs s).ents.map Prod.fst).Nodup := by
      rw [← hmapeq]
      exact e3
    have hndE : (refsKeys (expandChildren cb cur.1 0 cur.2 rs s).refs).Nodup := by
      rw [hkeysE, List.nodup_append]
      refine ⟨List.nodup_reverse.mpr hKnodup, hnd, ?_⟩
      intro a ha
      exact hKnotin a (List.mem_reverse.mp ha)
    have hacE : ∀ q ∈ refsKeys (expandChildren cb cur.1 0 cur.2 rs s).refs,
        q ≠ [] →
        q.dropLast ∈ refsKeys (expandChildren cb cur.1 0 cur.2 rs s).refs := by
      intro q hq hqne
      rw [hkeysE] at hq ⊢
      rcases List.mem_append.mp hq with hq | hq
      · obtain ⟨j, rfl⟩ := hK q (List.mem_reverse.mp hq)
        rw [List.dropLast_concat]
        exact List.mem_append_right _ hcur
      · exact List.mem_append_right _ (hac q hq hqne)
    have hpE : cur.1 ∈ refsKeys (expandChildren cb cur.1 0 cur.2 rs s).refs := by
      rw [hkeysE]
      exact List.mem_append_right _ hcur
    have hKcountP : ∀ q : List Nat,
        ((expandChildren cb cur.1 0 cur.2 rs s).ents.map Prod.fst).countP
            (fun x => decide (x ≠ [] ∧ x.dropLast = q))
          = if q = cur.1
            then (expandChildren cb cur.1 0 cur.2 rs s).ents.length else 0 := by
      intro q
      by_cases hqc : q = cur.1
      · subst hqc
        rw [if_pos rfl]
        have hlen :
            ((expandChildren cb cur.1 0 cur.2 rs s).ents.map Prod.fst).length
              = (expandChildren cb cur.1 0 cur.2 rs s).ents.length :=
          List.length_map _ _
        rw [← hlen]
        refine List.countP_eq_length.mpr ?_
        intro x hx
        obtain ⟨j, rfl⟩ := hK x hx
        simp [List.dropLast_concat]
      · rw [if_neg hqc]
        refine List.countP_eq_zero.mpr ?_
        intro x hx hpx
        obtain ⟨j, rfl⟩ := hK x hx
        simp [List.dropLast_concat] at hpx
        exact hqc hpx.symm
    have hccE : ∀ q : List Nat,
        childCount (expandChildren cb cur.1 0 cur.2 rs s).refs q
          = childCount rs q + (if q = cur.1
              then (expandChildren cb cur.1 0 cur.2 rs s).ents.length else 0) := by
      intro q
      unfold childCount
      rw [hkeysE, List.countP_append,
        (List.reverse_perm _).countP_eq, hKcountP]
      rw [Nat.add_comm]
    have hcurnotq : cur.1 ∉ queue.map Prod.fst := by
      intro hmem
      exact (hanti_head cur.1 hmem).1 (anc_refl _)
    have hqcount0 : (queue.map Prod.fst).count cur.1 = 0 :=
      List.count_eq_zero.mpr hcurnotq
    have hrefeqE : ∀ q ∈ refsKeys (expandChildren cb cur.1 0 cur.2 rs s).refs,
        refsGet (expandChildren cb cur.1 0 cur.2 rs s).refs q
          = childCount (expandChildren cb cur.1 0 cur.2 rs s).refs q
            + ((queue.map Prod.fst
                ++ (expandChildren cb cur.1 0 cur.2 rs s).ents.map Prod.fst).count q)
            + (if q = cur.1 then 1 else 0) := by
      intro q hq
      rw [List.count_append, hccE q]
      by_cases hqc : q = cur.1
      · subst hqc
        rw [if_pos rfl, if_pos rfl]
        have h5 := e5 hcur
        have hold := hrefeq cur.1 hcur
        simp [List.count_cons, hqcount0] at hold
        have hKc : ((expandChildren cb cur.1 0 cur.2 rs s).ents.map
            Prod.fst).count cur.1 = 0 := by
          refine List.count_eq_zero.mpr ?_
          intro hmem
          obtain ⟨j, hj⟩ := hK _ hmem
          exact pathIdx_ne hj.symm
        rw [h5, hKc, hqcount0]
        omega
      · rw [if_neg hqc, if_neg hqc]
        have hq2 := hq
        rw [hkeysE] at hq2
        rcases List.mem_append.mp hq2 with hq2 | hq2
        · have hqK := List.mem_reverse.mp hq2
          obtain ⟨en, hen, henq⟩ := List.mem_map.mp hqK
          have hgq : refsGet (expandChildren cb cur.1 0 cur.2 rs s).refs q = 1 := by
            rw [← henq]
            exact e6 en hen
          have hccq : childCount rs q = 0 := by
            unfold childCount
            refine List.countP_eq_zero.mpr ?_
            intro r hr hpr
            simp only [decide_eq_true_eq] at hpr
            have hancqr : Anc q r := by
              rcases hpr with ⟨hrne, hrdl⟩
              have h := anc_of_dropLast r
              rw [hrdl] at h
              exact h
            exact hnolive_below r hr q hqK hancqr
          have hqc0 : (queue.map Prod.fst).count q = 0 := by
            refine List.count_eq_zero.mpr ?_
            intro hmem
            obtain ⟨e', he', he'q⟩ := List.mem_map.mp hmem
            exact hKnotin q hqK (he'q ▸ hqmem e' he')
          have hKc1 : ((expandChildren cb cur.1 0 cur.2 rs s).ents.map
              Prod.fst).count q = 1 :=
            count_one_of_nodup_mem _ _ hKnodup hqK
          rw [hgq, hccq, hqc0, hKc1]
        · have hnotK :
              q ∉ (expandChildren cb cur.1 0 cur.2 rs s).ents.map Prod.fst :=
            fun hmem => hKnotin q hmem hq2
          have hshape : ∀ j : Nat, 0 ≤ j → q ≠ cur.1 ++ [j] := by
            intro j _ h
            subst h
            exact hz_head _ hq2 ⟨anc_append _ _, fun h => pathIdx_ne h.symm⟩
          have h7 := e7 q hqc hshape
          have hold := hrefeq q hq2
          simp [List.count_cons, hqc] at hold
          rw [h7, List.count_eq_zero.mpr hnotK]
          omega
    have htnoancG : ∀ t ∈ (queue.map Prod.fst
        ++ (expandChildren cb cur.1 0 cur.2 rs s).ents.map Prod.fst),
        ¬ Anc t cur.1 := by
      intro t ht
      rcases List.mem_append.mp ht with ht | ht
      · exact (hanti_head t ht).2
      · obtain ⟨j, rfl⟩ := hK t ht
        intro h
        have := anc_length_le h
        simp at this
    have htliveG : ∀ t ∈ (queue.map Prod.fst
        ++ (expandChildren cb cur.1 0 cur.2 rs s).ents.map Prod.fst),
        t ∈ refsKeys (expandChildren cb cur.1 0 cur.2 rs s).refs := by
      intro t ht
      rw [hkeysE]
      rcases List.mem_append.mp ht with ht | ht
      · obtain ⟨e', he', rfl⟩ := List.mem_map.mp ht
        exact List.mem_append_right _ (hqmem e' he')
      · exact List.mem_append_left _ (List.mem_reverse.mpr ht)
    obtain ⟨g1, g2, g3, g4, g5, g6, g7, g8⟩ :=
      bftwGcChain_spec cb cur.1.length cur.1
        (expandChildren cb cur.1 0 cur.2 rs s).refs
        (expandChildren cb cur.1 0 cur.2 rs s).st depthFlag
        (queue.map Prod.fst
          ++ (expandChildren cb cur.1 0 cur.2 rs s).ents.map Prod.fst)
        rfl hndE hacE hpE hrefeqE htnoancG htliveG
    have hP1 : List.Pairwise PostAfterDesc
        (expandChildren cb cur.1 0 cur.2 rs s).evs := by
      refine List.pairwise_of_forall_mem_list ?_
      intro a ha b hb hapost
      rw [(e1 a ha).1] at hapost
      cases hapost
    have hP2 : List.Pairwise PostAfterDesc
        (bftwGcChain cb cur.1 (expandChildren cb cur.1 0 cur.2 rs s).refs
          (expandChildren cb cur.1 0 cur.2 rs s).st depthFlag).evs := by
      refine g8.imp ?_
      intro a b h hapost hs
      exact hs.2 (anc_eq_of_length_ge hs.1 (anc_length_le h))
    have hPEG : List.Pairwise PostAfterDesc
        ((expandChildren cb cur.1 0 cur.2 rs s).evs
          ++ (bftwGcChain cb cur.1 (expandChildren cb cur.1 0 cur.2 rs s).refs
            (expandChildren cb cur.1 0 cur.2 rs s).st depthFlag).evs) := by
      rw [List.pairwise_append]
      refine ⟨hP1, hP2, ?_⟩
      intro a ha b hb hapost
      rw [(e1 a ha).1] at hapost
      cases hapost
    have hBEG : ∀ v ∈ ((expandChildren cb cur.1 0 cur.2 rs s).evs
          ++ (bftwGcChain cb cur.1 (expandChildren cb cur.1 0 cur.2 rs s).refs
            (expandChildren cb cur.1 0 cur.2 rs s).st depthFlag).evs),
        (∃ t ∈ cur.1 :: queue.map Prod.fst, Anc t v.path) ∨
          v.path ∈ refsKeys rs := by
      intro v hv
      rcases List.mem_append.mp hv with hv | hv
      · obtain ⟨_, j, _, hpath⟩ := e1 v hv
        refine Or.inl ⟨cur.1, List.mem_cons_self _ _, ?_⟩
        rw [hpath]
        exact anc_append _ _
      · obtain ⟨_, _, hmem⟩ := g6 v hv
        rw [hkeysE] at hmem
        rcases List.mem_append.mp hmem with hmem | hmem
        · obtain ⟨j, hj⟩ := hK _ (List.mem_reverse.mp hmem)
          refine Or.inl ⟨cur.1, List.mem_cons_self _ _, ?_⟩
          rw [hj]
          exact anc_append _ _
        · exact Or.inr hmem
    rw [bftwLoop]
    simp only [bftwGc, Bool.true_and]
    by_cases hstop : (expandChildren cb cur.1 0 cur.2 rs s).stopped = true
    · simp only [if_pos hstop]
      refine ⟨hP1, ?_⟩
      intro v hv
      obtain ⟨_, j, _, hpath⟩ := e1 v hv
      refine Or.inl ⟨cur.1, List.mem_cons_self _ _, ?_⟩
      rw [hpath]
      exact anc_append _ _
    · simp only [if_neg hstop]
      by_cases hgstop : (bftwGcChain cb cur.1
          (expandChildren cb cur.1 0 cur.2 rs s).refs
          (expandChildren cb cur.1 0 cur.2 rs s).st depthFlag).stopRet = true
      · simp only [if_pos hgstop]
        exact ⟨hPEG, hBEG⟩
      · simp only [if_neg hgstop]
        split
        · exact ⟨hPEG, hBEG⟩
        · rename_i nxt rest heq
          have htoks : queue.map Prod.fst
              ++ (expandChildren cb cur.1 0 cur.2 rs s).ents.map Prod.fst
              = nxt.1 :: rest.map Prod.fst := by
            rw [← List.map_append, heq]
            rfl
          have hsum : ((nxt :: rest).map entSize).sum
              = ((queue.map entSize).sum)
                + (((expandChildren cb cur.1 0 cur.2 rs s).ents.map entSize).sum) := by
            rw [← heq]
            simp
          have hsz := expandChildren_ents_size cb cur.1 0 cur.2 rs s
          have hless : entSize nxt + (rest.map entSize).sum < w := by
            simp only [List.map_cons, List.sum_cons] at hsum
            simp only [entSize] at hsum hsz hw ⊢
            omega
          have hcurR : nxt.1 ∈ refsKeys (bftwGcChain cb cur.1
              (expandChildren cb cur.1 0 cur.2 rs s).refs
              (expandChildren cb cur.1 0 cur.2 rs s).st depthFlag).refs := by
            refine g4 nxt.1 ?_
            rw [htoks]
            exact List.mem_cons_self _ _
          have hqmemR : ∀ e ∈ rest, e.1 ∈ refsKeys (bftwGcChain cb cur.1
              (expandChildren cb cur.1 0 cur.2 rs s).refs
              (expandChildren cb cur.1 0 cur.2 rs s).st depthFlag).refs := by
            intro e he
            refine g4 e.1 ?_
            rw [htoks]
            exact List.mem_cons_of_mem _ (List.mem_map_of_mem _ he)
          have hrefeqR : ∀ q ∈ refsKeys (bftwGcChain cb cur.1
                (expandChildren cb cur.1 0 cur.2 rs s).refs
                (expandChildren cb cur.1 0 cur.2 rs s).st depthFlag).refs,
              refsGet (bftwGcChain cb cur.1
                (expandChildren cb cur.1 0 cur.2 rs s).refs
                (expandChildren cb cur.1 0 cur.2 rs s).st depthFlag).refs q
                = childCount (bftwGcChain cb cur.1
                    (expandChildren cb cur.1 0 cur.2 rs s).refs
                    (expandChildren cb cur.1 0 cur.2 rs s).st depthFlag).refs q
                  + ((nxt.1 :: rest.map Prod.fst).count q) := by
            intro q hq
            rw [← htoks]
            exact g5 q hq
          have hantiG : List.Pairwise
              (fun a b : List Nat => ¬ Anc a b ∧ ¬ Anc b a)
              (queue.map Prod.fst
                ++ (expandChildren cb cur.1 0 cur.2 rs s).ents.map Prod.fst) := by
            rw [List.pairwise_append]
            refine ⟨hanti_tail, ?_, ?_⟩
            · have hKpw : List.Pairwise (fun a b : List Nat => a ≠ b)
                  ((expandChildren cb cur.1 0 cur.2 rs s).ents.map Prod.fst) :=
                hKnodup
              refine hKpw.imp_of_mem ?_
              intro a b ha hb hne
              obtain ⟨i, rfl⟩ := hK a ha
              obtain ⟨j, rfl⟩ := hK b hb
              constructor
              · intro h
                exact hne (anc_eq_of_length_ge h (by simp))
              · intro h
                exact hne (anc_eq_of_length_ge h (by simp)).symm
            · intro t ht x hx
              obtain ⟨j, rfl⟩ := hK x hx
              constructor
              · intro h
                by_cases hlen : t.length ≤ cur.1.length
                · have hdl : Anc t cur.1 := by
                    have hd := anc_dropLast h (by simp; omega)
                    rwa [List.dropLast_concat] at hd
                  exact (hanti_head t ht).2 hdl
                · have hteq : t = cur.1 ++ [j] := by
                    have hle := anc_length_le h
                    refine anc_eq_of_length_ge h ?_
                    simp at hle ⊢
                    omega
                  subst hteq
                  exact (hanti_head _ ht).1 (anc_append _ _)
              · intro h
                exact (hanti_head t ht).1 (anc_trans (anc_append _ _) h)
          have hantiR : List.Pairwise
              (fun a b : List Nat => ¬ Anc a b ∧ ¬ Anc b a)
              (nxt.1 :: rest.map Prod.fst) := by
            rw [← htoks]
            exact hantiG
          have hzR : ∀ q ∈ refsKeys (bftwGcChain cb cur.1
                (expandChildren cb cur.1 0 cur.2 rs s).refs
                (expandChildren cb cur.1 0 cur.2 rs s).st depthFlag).refs,
              ∀ t ∈ nxt.1 :: rest.map Prod.fst, ¬ SAnc t q := by
            intro q hq t ht hs
            rw [← htoks] at ht
            have hqE := g3 q hq
            rw [hkeysE] at hqE
            rcases List.mem_append.mp hqE with hqE | hqE
            · obtain ⟨j, rfl⟩ := hK q (List.mem_reverse.mp hqE)
              rcases List.mem_append.mp ht with ht | ht
              · have hlt := sanc_length_lt hs
                have hlen : t.length ≤ cur.1.length := by
                  simp at hlt
                  omega
                have hdl : Anc t cur.1 := by
                  have hd := anc_dropLast hs.1 (by simp; omega)
                  rwa [List.dropLast_concat] at hd
                exact (hanti_head t ht).2 hdl
              · obtain ⟨i, rfl⟩ := hK t ht
                have := sanc_length_lt hs
                simp at this
            · rcases List.mem_append.mp ht with ht | ht
              · exact hz q hqE t (List.mem_cons_of_mem _ ht) hs
              · obtain ⟨i, rfl⟩ := hK t ht
                have h1 : Anc cur.1 q := anc_trans (anc_append _ _) hs.1
                have h2 : q ≠ cur.1 := by
                  intro h
                  subst h
                  have := anc_length_le hs.1
                  simp at this
                exact hz_head q hqE ⟨h1, fun h => h2 h.symm⟩
          obtain ⟨hrp, hrb⟩ := ih _ hless nxt rest
            (bftwGcChain cb cur.1
              (expandChildren cb cur.1 0 cur.2 rs s).refs
              (expandChildren cb cur.1 0 cur.2 rs s).st depthFlag).refs
            (bftwGcChain cb cur.1
              (expandChildren cb cur.1 0 cur.2 rs s).refs
              (expandChildren cb cur.1 0 cur.2 rs s).st depthFlag).st
            rfl g1 g2 hcurR hqmemR hrefeqR hantiR hzR
          constructor
          · rw [List.pairwise_append]
            refine ⟨hPEG, hrp, ?_⟩
            intro a ha b hb hapost hs
            rcases List.mem_append.mp ha with ha | ha
            · rw [(e1 a ha).1] at hapost
              cases hapost
            · rcases hrb b hb with ⟨t, ht, htb⟩ | hbl
              · rw [← htoks] at ht
                have htlive := g4 t ht
                have hnt := g7 a ha t htlive
                by_cases hcmp : a.path.length ≤ t.length
                · exact hnt (anc_comparable hs.1 htb hcmp)
                · have htal : Anc t a.path :=
                    anc_comparable htb hs.1 (by omega)
                  have hcur1 : Anc a.path cur.1 := (g6 a ha).2.1
                  exact htnoancG t ht (anc_trans htal hcur1)
              · exact g7 a ha b.path hbl hs.1
          · intro v hv
            rcases List.mem_append.mp hv with hv | hv
            · exact hBEG v hv
            · rcases hrb v hv with ⟨t, ht, htv⟩ | hvl
              · rw [← htoks] at ht
                rcases List.mem_append.mp ht with ht | ht
                · exact Or.inl ⟨t, List.mem_cons_of_mem _ ht, htv⟩
                · obtain ⟨j, rfl⟩ := hK t ht
                  exact Or.inl ⟨cur.1, List.mem_cons_self _ _,
                    anc_trans (anc_append _ _) htv⟩
              · have hvE := g3 v.path hvl
                rw [hkeysE] at hvE
                rcases List.mem_append.mp hvE with hm | hm
                · obtain ⟨j, hj⟩ := hK _ (List.mem_reverse.mp hm)
                  refine Or.inl ⟨cur.1, List.mem_cons_self _ _, ?_⟩
                  rw [hj]
                  exact anc_append _ _
                · exact Or.inr hm

/-- **C2.** When post-order visits are enabled (the `BFTW_DEPTH` flag), every
directory's post-order callback fires strictly after every callback of every
strict descendant: no visit emitted after a post-order visit lies strictly
inside that directory (`PostAfterDesc` holds of every ordered pair).
Post-order callbacks happen only for directories with live cache entries —
they are emitted exclusively by the garbage-collection chain, which fires
them exactly when an entry's reference count reaches zero — and with the
flag clear every emitted visit is pre-order. -/
theorem bftw_postorder {σ : Type} (cb : σ → Visit → BftwAction × σ)
    (root : FSObj) (s0 : σ) :
    List.Pairwise PostAfterDesc (bftwRun cb true root s0).1 ∧
    ((bftwRun cb true root s0).1.all
      (fun v => v.visit == BftwVisit.pre || v.isDir)) = true ∧
    ((bftwRun cb false root s0).1.all
      (fun v => v.visit == BftwVisit.pre)) = true := by
  refine ⟨?_, ?_, ?_⟩
  · unfold bftwRun
    rcases hcb : cb s0 ⟨[], root.isDir, BftwVisit.pre⟩ with ⟨a, s'⟩
    simp only [hcb]
    have hroot : ∀ cs,
        List.Pairwise PostAfterDesc
          ((⟨[], root.isDir, BftwVisit.pre⟩ : Visit) ::
            (bftwLoop cb true ([], cs) [] [([], 1)] s').1) := by
      intro cs
      obtain ⟨h1, _⟩ := bftwLoop_post_spec cb true _ ([], cs) [] [([], 1)] s'
        rfl (by simp [refsKeys])
        (by
          intro q hq hne
          simp [refsKeys] at hq
          exact absurd hq hne)
        (by simp [refsKeys])
        (by simp)
        (by
          intro q hq
          simp [refsKeys] at hq
          subst hq
          show refsGet [([], 1)] []
            = childCount [([], 1)] [] + List.count ([] : List Nat) [[]]
          decide)
        (by simp)
        (by
          intro q hq t ht hs
          simp [refsKeys] at hq
          simp at ht
          subst hq
          subst ht
          exact hs.2 rfl)
      exact List.pairwise_cons.mpr ⟨fun b hb h => (nomatch h), h1⟩
    cases a with
    | skipSubtree => exact List.pairwise_singleton _ _
    | stop => exact List.pairwise_singleton _ _
    | skipSiblings =>
      cases root with
      | file => exact List.pairwise_singleton _ _
      | dir cs => exact hroot cs
    | cont =>
      cases root with
      | file => exact List.pairwise_singleton _ _
      | dir cs => exact hroot cs
  · unfold bftwRun
    rcases hcb : cb s0 ⟨[], root.isDir, BftwVisit.pre⟩ with ⟨a, s'⟩
    simp only [hcb]
    have hroot : ∀ cs,
        ((⟨[], root.isDir, BftwVisit.pre⟩ : Visit) ::
            (bftwLoop cb true ([], cs) [] [([], 1)] s').1).all
          (fun v => v.visit == BftwVisit.pre || v.isDir) = true := by
      intro cs
      refine List.all_eq_true.mpr ?_
      intro v hv
      rcases List.mem_cons.mp hv with rfl | hv
      · simp
      · rcases bftwLoop_visits cb true _ ([], cs) [] [([], 1)] s'
          rfl v hv with h | h
        · simp [h]
        · simp [h]
    cases a with
    | skipSubtree => simp
    | stop => simp
    | skipSiblings =>
      cases root with
      | file => simp
      | dir cs => exact hroot cs
    | cont =>
      cases root with
      | file => simp
      | dir cs => exact hroot cs
  · unfold bftwRun
    rcases hcb : cb s0 ⟨[], root.isDir, BftwVisit.pre⟩ with ⟨a, s'⟩
    simp only [hcb]
    have hroot : ∀ cs,
        ((⟨[], root.isDir, BftwVisit.pre⟩ : Visit) ::
            (bftwLoop cb false ([], cs) [] [([], 1)] s').1).all
          (fun v => v.visit == BftwVisit.pre) = true := by
      intro cs
      refine List.all_eq_true.mpr ?_
      intro v hv
      rcases List.mem_cons.mp hv with rfl | hv
      · simp
      · simp [bftwLoop_noflag_pre cb _ ([], cs) [] [([], 1)] s' rfl v hv]
    cases a with
    | skipSubtree => simp
    | stop => simp
    | skipSiblings =>
      cases root with
      | file => simp
      | dir cs => exact hroot cs
    | cont =>
      cases root with
      | file => simp
      | dir cs => exact hroot cs

/-! ### The expression optimizer: claim C3 -/

/-- Evaluating a quit-free expression from a state with a clear quit flag
leaves the quit flag clear. -/
theorem evalExpr_quitpres {W : Type} {e : Expr W} (hq : QuitFree e) :
    ∀ s : EvalSt W, s.quit = false → ((evalExpr e s).2).quit = false := by
  induction hq with
  | etrue => intro s hs; exact hs
  | efalse => intro s hs; exact hs
  | test f => intro s hs; exact hs
  | act f h => intro s hs; exact h s hs
  | enot r hr ih =>
    intro s hs
    simpa [evalExpr] using ih s hs
  | eand l r hl hr ihl ihr =>
    intro s hs
    have h2 := ihl s hs
    simp only [evalExpr]
    split
    · exact h2
    · split
      · exact h2
      · exact ihr _ h2
  | eor l r hl hr ihl ihr =>
    intro s hs
    have h2 := ihl s hs
    simp only [evalExpr]
    split
    · exact h2
    · split
      · exact h2
      · exact ihr _ h2
  | ecomma l r hl hr ihl ihr =>
    intro s hs
    have h2 := ihl s hs
    simp only [evalExpr]
    split
    · exact h2
    · exact ihr _ h2

/-- For quit-free expressions evaluated with a clear quit flag, the
`always_true` and `always_false` flags are semantically sound. -/
theorem evalExpr_flags_sound {W : Type} :
    ∀ e : Expr W, QuitFree e → ∀ s : EvalSt W, s.quit = false →
      ((e.alwaysTrue = true → (evalExpr e s).1 = true) ∧
       (e.alwaysFalse = true → (evalExpr e s).1 = false)) := by
  intro e
  induction e with
  | etrue =>
    intro _ s hs
    exact ⟨fun _ => rfl, fun h => by simp [Expr.alwaysFalse] at h⟩
  | efalse =>
    intro _ s hs
    exact ⟨fun h => by simp [Expr.alwaysTrue] at h, fun _ => rfl⟩
  | test f =>
    intro _ s hs
    exact ⟨fun h => by simp [Expr.alwaysTrue] at h,
      fun h => by simp [Expr.alwaysFalse] at h⟩
  | act f =>
    intro _ s hs
    exact ⟨fun h => by simp [Expr.alwaysTrue] at h,
      fun h => by simp [Expr.alwaysFalse] at h⟩
  | enot r ihr =>
    intro hq s hs
    cases hq with
    | enot _ hqr =>
      obtain ⟨iht, ihf⟩ := ihr hqr s hs
      constructor
      · intro h
        simp only [Expr.alwaysTrue] at h
        simp only [evalExpr]
        simp [ihf h]
      · intro h
        simp only [Expr.alwaysFalse] at h
        simp only [evalExpr]
        simp [iht h]
  | eand l r ihl ihr =>
    intro hq s hs
    cases hq with
    | eand _ _ hql hqr =>
      obtain ⟨ihlt, ihlf⟩ := ihl hql s hs
      have hql2 := evalExpr_quitpres hql s hs
      constructor
      · intro h
        simp only [Expr.alwaysTrue, Bool.and_eq_true] at h
        obtain ⟨iht2, _⟩ := ihr hqr (evalExpr l s).2 hql2
        have h1 := ihlt h.1
        simp only [evalExpr]
        rw [if_neg (by simp [h1]), if_neg (by simp [hql2])]
        exact iht2 h.2
      · intro h
        simp only [Expr.alwaysFalse, Bool.or_eq_true] at h
        rcases h with h | h
        · have h1 := ihlf h
          simp only [evalExpr]
          rw [if_pos h1]
        · obtain ⟨_, ihf2⟩ := ihr hqr (evalExpr l s).2 hql2
          simp only [evalExpr]
          by_cases h1 : (evalExpr l s).1 = false
          · rw [if_pos h1]
          · rw [if_neg h1, if_neg (by simp [hql2])]
            exact ihf2 h
  | eor l r ihl ihr =>
    intro hq s hs
    cases hq with
    | eor _ _ hql hqr =>
      obtain ⟨ihlt, ihlf⟩ := ihl hql s hs
      have hql2 := evalExpr_quitpres hql s hs
      constructor
      · intro h
        simp only [Expr.alwaysTrue, Bool.or_eq_true] at h
        rcases h with h | h
        · have h1 := ihlt h
          simp only [evalExpr]
          rw [if_pos h1]
        · obtain ⟨iht2, _⟩ := ihr hqr (evalExpr l s).2 hql2
          simp only [evalExpr]
          by_cases h1 : (evalExpr l s).1 = true
          · rw [if_pos h1]
          · rw [if_neg h1, if_neg (by simp [hql2])]
            exact iht2 h
      · intro h
        simp only [Expr.alwaysFalse, Bool.and_eq_true] at h
        obtain ⟨_, ihf2⟩ := ihr hqr (evalExpr l s).2 hql2
        have h1 := ihlf h.1
        simp only [evalExpr]
        rw [if_neg (by simp [h1]), if_neg (by simp [hql2])]
        exact ihf2 h.2
  | ecomma l r ihl ihr =>
    intro hq s hs
    cases hq with
    | ecomma _ _ hql hqr =>
      have hql2 := evalExpr_quitpres hql s hs
      obtain ⟨iht2, ihf2⟩ := ihr hqr (evalExpr l s).2 hql2
      constructor
      · intro h
        simp only [Expr.alwaysTrue] at h
        simp only [evalExpr]
        rw [if_neg (by simp [hql2])]
        exact iht2 h
      · intro h
        simp only [Expr.alwaysFalse] at h
        simp only [evalExpr]
        rw [if_neg (by simp [hql2])]
        exact ihf2 h

/-- `E -and -true` evaluates exactly like `E` alone (quit-free `E`, clear
quit flag). -/
theorem evalExpr_and_true_right {W : Type} (l : Expr W) (hql : QuitFree l)
    (s : EvalSt W) (hs : s.quit = false) :
    evalExpr (Expr.eand l Expr.etrue) s = evalExpr l s := by
  have hq2 := evalExpr_quitpres hql s hs
  rcases hbl : evalExpr l s with ⟨b, s2⟩
  simp only [hbl] at hq2
  simp only [evalExpr, hbl]
  cases b
  · simp
  · simp [evalExpr, hq2]

/-- `-true -and E` evaluates exactly like `E` alone. -/
theorem evalExpr_and_true_left {W : Type} (r : Expr W) (s : EvalSt W)
    (hs : s.quit = false) :
    evalExpr (Expr.eand Expr.etrue r) s = evalExpr r s := by
  simp [evalExpr, hs]

/-- `E -or -false` evaluates exactly like `E` alone. -/
theorem evalExpr_or_false_right {W : Type} (l : Expr W) (hql : QuitFree l)
    (s : EvalSt W) (hs : s.quit = false) :
    evalExpr (Expr.eor l Expr.efalse) s = evalExpr l s := by
  have hq2 := evalExpr_quitpres hql s hs
  rcases hbl : evalExpr l s with ⟨b, s2⟩
  simp only [hbl] at hq2
  simp only [evalExpr, hbl]
  cases b
  · simp [evalExpr, hq2]
  · simp

/-- `-false -or E` evaluates exactly like `E` alone. -/
theorem evalExpr_or_false_left {W : Type} (r : Expr W) (s : EvalSt W)
    (hs : s.quit = false) :
    evalExpr (Expr.eor Expr.efalse r) s = evalExpr r s := by
  simp [evalExpr, hs]

/-- Conjunction with an always-false left operand short-circuits to the left
operand. -/
theorem evalExpr_and_alwaysFalse {W : Type} (l r : Expr W) (hql : QuitFree l)
    (haf : l.alwaysFalse = true) (s : EvalSt W) (hs : s.quit = false) :
    evalExpr (Expr.eand l r) s = evalExpr l s := by
  have h1 := (evalExpr_flags_sound l hql s hs).2 haf
  rcases hbl : evalExpr l s with ⟨b, s2⟩
  simp only [hbl] at h1
  subst h1
  simp [evalExpr, hbl]

/-- Disjunction with an always-true left operand short-circuits to the left
operand. -/
theorem evalExpr_or_alwaysTrue {W : Type} (l r : Expr W) (hql : QuitFree l)
    (hat : l.alwaysTrue = true) (s : EvalSt W) (hs : s.quit = false) :
    evalExpr (Expr.eor l r) s = evalExpr l s := by
  have h1 := (evalExpr_flags_sound l hql s hs).1 hat
  rcases hbl : evalExpr l s with ⟨b, s2⟩
  simp only [hbl] at h1
  subst h1
  simp [evalExpr, hbl]

/-- Double negation does not change evaluation. -/
theorem evalExpr_notnot {W : Type} (x : Expr W) (s : EvalSt W) :
    evalExpr x s = evalExpr (Expr.enot (Expr.enot x)) s := by
  simp [evalExpr]

/-- De Morgan, and-side: `!(a -or b)` evaluates like `!a -and !b` under the
short-circuit semantics (quit-free `a`, clear quit flag). -/
theorem evalExpr_demorgan_and {W : Type} (a b : Expr W) (hqa : QuitFree a)
    (s : EvalSt W) (hs : s.quit = false) :
    evalExpr (Expr.enot (Expr.eor a b)) s
      = evalExpr (Expr.eand (Expr.enot a) (Expr.enot b)) s := by
  have hq2 := evalExpr_quitpres hqa s hs
  rcases hba : evalExpr a s with ⟨ba, sa⟩
  simp only [hba] at hq2
  simp only [evalExpr, hba]
  cases ba
  · simp [hq2]
  · simp [hq2]

/-- De Morgan, or-side: `!(a -and b)` evaluates like `!a -or !b`. -/
theorem evalExpr_demorgan_or {W : Type} (a b : Expr W) (hqa : QuitFree a)
    (s : EvalSt W) (hs : s.quit = false) :
    evalExpr (Expr.enot (Expr.eand a b)) s
      = evalExpr (Expr.eor (Expr.enot a) (Expr.enot b)) s := by
  have hq2 := evalExpr_quitpres hqa s hs
  rcases hba : evalExpr a s with ⟨ba, sa⟩
  simp only [hba] at hq2
  simp only [evalExpr, hba]
  cases ba
  · simp [hq2]
  · simp [hq2]

/-- A comma whose left operand is a stripped negation evaluates like the
negated original: the comma discards the value and keeps the state. -/
theorem evalExpr_comma_stripnot {W : Type} (x r : Expr W) (s : EvalSt W) :
    evalExpr (Expr.ecomma x r) s = evalExpr (Expr.ecomma (Expr.enot x) r) s := by
  simp only [evalExpr]

/-- Evaluation congruence under a negation. -/
theorem evalExpr_cong_not {W : Type} {x y : Expr W} {s : EvalSt W}
    (h : evalExpr x s = evalExpr y s) :
    evalExpr (Expr.enot x) s = evalExpr (Expr.enot y) s := by
  simp only [evalExpr, h]

/-- Evaluation congruence under a conjunction, for pointwise-equivalent
operands (at clear-quit states). -/
theorem evalExpr_cong_and {W : Type} {la l ra r : Expr W} (hql : QuitFree l)
    (s : EvalSt W) (hs : s.quit = false)
    (hl : ∀ σ : EvalSt W, σ.quit = false → evalExpr la σ = evalExpr l σ)
    (hr : ∀ σ : EvalSt W, σ.quit = false → evalExpr ra σ = evalExpr r σ) :
    evalExpr (Expr.eand la ra) s = evalExpr (Expr.eand l r) s := by
  have hq2 := evalExpr_quitpres hql s hs
  simp only [evalExpr, hl s hs]
  rcases hbl : evalExpr l s with ⟨b, s2⟩
  simp only [hbl] at hq2
  cases b
  · simp
  · simp [hq2, hr s2 hq2]

/-- Evaluation congruence under a disjunction. -/
theorem evalExpr_cong_or {W : Type} {la l ra r : Expr W} (hql : QuitFree l)
    (s : EvalSt W) (hs : s.quit = false)
    (hl : ∀ σ : EvalSt W, σ.quit = false → evalExpr la σ = evalExpr l σ)
    (hr : ∀ σ : EvalSt W, σ.quit = false → evalExpr ra σ = evalExpr r σ) :
    evalExpr (Expr.eor la ra) s = evalExpr (Expr.eor l r) s := by
  have hq2 := evalExpr_quitpres hql s hs
  simp only [evalExpr, hl s hs]
  rcases hbl : evalExpr l s with ⟨b, s2⟩
  simp only [hbl] at hq2
  cases b
  · simp [hq2, hr s2 hq2]
  · simp

/-- The smart constructors preserve quit-freedom. -/
theorem newExpr_quitfree {W : Type} :
    ∀ fuel o : Nat,
      ((∀ r : Expr W, QuitFree r → QuitFree (newNotExpr fuel o r)) ∧
       (∀ l r : Expr W, QuitFree l → QuitFree r →
          QuitFree (newAndExpr fuel o l r)) ∧
       (∀ l r : Expr W, QuitFree l → QuitFree r →
          QuitFree (newOrExpr fuel o l r))) := by
  intro fuel
  induction fuel with
  | zero =>
    intro o
    refine ⟨fun r h => ?_, fun l r hl hr => ?_, fun l r hl hr => ?_⟩
    · simp only [newNotExpr]
      exact QuitFree.enot r h
    · simp only [newAndExpr]
      exact QuitFree.eand l r hl hr
    · simp only [newOrExpr]
      exact QuitFree.eor l r hl hr
  | succ fuel ih =>
    intro o
    obtain ⟨ihn, iha, iho⟩ := ih o
    refine ⟨?_, ?_, ?_⟩
    · intro r hqr
      simp only [newNotExpr]
      split
      · split
        · exact QuitFree.efalse
        · exact QuitFree.etrue
        · cases hqr with
          | enot x hx => exact hx
        · split
          · cases hqr with
            | eand _ _ hqa hqb => exact iho _ _ (ihn _ hqa) (ihn _ hqb)
          · exact QuitFree.enot _ hqr
        · split
          · cases hqr with
            | eor _ _ hqa hqb => exact iha _ _ (ihn _ hqa) (ihn _ hqb)
          · exact QuitFree.enot _ hqr
        · exact QuitFree.enot _ hqr
      · exact QuitFree.enot _ hqr
    · intro l r hql hqr
      simp only [newAndExpr]
      split
      · split
        · exact hqr
        · exact hql
        · split
          · exact hql
          · split
            · exact hqr
            · split
              · cases hql with
                | enot _ hqa =>
                  cases hqr with
                  | enot _ hqb => exact ihn _ (iho _ _ hqa hqb)
              · exact QuitFree.eand _ _ hql hqr
      · exact QuitFree.eand _ _ hql hqr
    · intro l r hql hqr
      simp only [newOrExpr]
      split
      · split
        · exact hql
        · split
          · exact hqr
          · exact hql
          · split
            · exact hqr
            · split
              · cases hql with
                | enot _ hqa =>
                  cases hqr with
                  | enot _ hqb => exact ihn _ (iha _ _ hqa hqb)
              · exact QuitFree.eor _ _ hql hqr
      · exact QuitFree.eor _ _ hql hqr

/-- `new_comma_expr` preserves quit-freedom. -/
theorem newCommaExpr_quitfree {W : Type} (o : Nat) (l r : Expr W)
    (hl : QuitFree l) (hr : QuitFree r) : QuitFree (newCommaExpr o l r) := by
  simp only [newCommaExpr]
  split
  · split
    · exact hr
    · split
      · cases hl with
        | enot _ hx => exact QuitFree.ecomma _ _ hx hr
      · exact QuitFree.ecomma _ _ hl hr
  · exact QuitFree.ecomma _ _ hl hr

/-- The bottom-up optimizer preserves quit-freedom. -/
theorem optimizeExpr_quitfree {W : Type} (fuel o : Nat) :
    ∀ e : Expr W, QuitFree e → QuitFree (optimizeExpr fuel o e) := by
  intro e
  induction e with
  | etrue =>
    intro h
    simpa only [optimizeExpr] using h
  | efalse =>
    intro h
    simpa only [optimizeExpr] using h
  | test f =>
    intro h
    simpa only [optimizeExpr] using h
  | act f =>
    intro h
    simpa only [optimizeExpr] using h
  | enot r ihr =>
    intro h
    cases h with
    | enot _ hr =>
      simp only [optimizeExpr]
      exact (newExpr_quitfree fuel o).1 _ (ihr hr)
  | eand l r ihl ihr =>
    intro h
    cases h with
    | eand _ _ hl hr =>
      simp only [optimizeExpr]
      exact (newExpr_quitfree fuel o).2.1 _ _ (ihl hl) (ihr hr)
  | eor l r ihl ihr =>
    intro h
    cases h with
    | eor _ _ hl hr =>
      simp only [optimizeExpr]
      exact (newExpr_quitfree fuel o).2.2 _ _ (ihl hl) (ihr hr)
  | ecomma l r ihl ihr =>
    intro h
    cases h with
    | ecomma _ _ hl hr =>
      simp only [optimizeExpr]
      exact newCommaExpr_quitfree o _ _ (ihl hl) (ihr hr)

/-- At optimization levels 0 and 1, each smart constructor builds an
expression that evaluates exactly like the plain node it replaces, for
quit-free operands and a clear quit flag. -/
theorem newExpr_eval_equiv {W : Type} :
    ∀ fuel o : Nat, o ≤ 1 →
      ((∀ r : Expr W, QuitFree r → ∀ s : EvalSt W, s.quit = false →
          evalExpr (newNotExpr fuel o r) s = evalExpr (Expr.enot r) s) ∧
       (∀ l r : Expr W, QuitFree l → QuitFree r →
          ∀ s : EvalSt W, s.quit = false →
          evalExpr (newAndExpr fuel o l r) s = evalExpr (Expr.eand l r) s) ∧
       (∀ l r : Expr W, QuitFree l → QuitFree r →
          ∀ s : EvalSt W, s.quit = false →
          evalExpr (newOrExpr fuel o l r) s = evalExpr (Expr.eor l r) s)) := by
  intro fuel
  induction fuel with
  | zero =>
    intro o ho
    refine ⟨fun r _ s _ => ?_, fun l r _ _ s _ => ?_, fun l r _ _ s _ => ?_⟩
    · simp only [newNotExpr]
    · simp only [newAndExpr]
    · simp only [newOrExpr]
  | succ fuel ih =>
    intro o ho
    obtain ⟨ihn, iha, iho⟩ := ih o ho
    obtain ⟨qn, qa, qo⟩ := newExpr_quitfree (W := W) fuel o
    have ho2 : ¬ 2 ≤ o := by omega
    refine ⟨?_, ?_, ?_⟩
    · intro r hqr s hs
      simp only [newNotExpr]
      split
      · split
        · simp [evalExpr]
        · simp [evalExpr]
        · cases hqr with
          | enot _ hx => exact evalExpr_notnot _ s
        · split
          · cases hqr with
            | eand _ _ hqa hqb =>
              have h1 := iho _ _ (qn _ hqa) (qn _ hqb) s hs
              have h2 := evalExpr_cong_or (QuitFree.enot _ hqa) s hs
                (fun σ hσ => ihn _ hqa σ hσ) (fun σ hσ => ihn _ hqb σ hσ)
              exact h1.trans
                (h2.trans (evalExpr_demorgan_or _ _ hqa s hs).symm)
          · rfl
        · split
          · cases hqr with
            | eor _ _ hqa hqb =>
              have h1 := iha _ _ (qn _ hqa) (qn _ hqb) s hs
              have h2 := evalExpr_cong_and (QuitFree.enot _ hqa) s hs
                (fun σ hσ => ihn _ hqa σ hσ) (fun σ hσ => ihn _ hqb σ hσ)
              exact h1.trans
                (h2.trans (evalExpr_demorgan_and _ _ hqa s hs).symm)
          · rfl
        · rfl
      · rfl
    · intro l r hql hqr s hs
      simp only [newAndExpr]
      split
      · split
        · exact (evalExpr_and_true_left _ s hs).symm
        · exact (evalExpr_and_true_right _ hql s hs).symm
        · split
          · exact (evalExpr_and_alwaysFalse _ _ hql (by assumption) s hs).symm
          · split
            · exact absurd (by assumption) (by simp [ho2])
            · split
              · cases hql with
                | enot _ hqa =>
                  cases hqr with
                  | enot _ hqb =>
                    have h1 := ihn _ (qo _ _ hqa hqb) s hs
                    have h2 := evalExpr_cong_not (iho _ _ hqa hqb s hs)
                    exact h1.trans
                      (h2.trans (evalExpr_demorgan_and _ _ hqa s hs))
              · rfl
      · rfl
    · intro l r hql hqr s hs
      simp only [newOrExpr]
      split
      · split
        · exact (evalExpr_or_alwaysTrue _ _ hql (by assumption) s hs).symm
        · split
          · exact (evalExpr_or_false_left _ s hs).symm
          · exact (evalExpr_or_false_right _ hql s hs).symm
          · split
            · exact absurd (by assumption) (by simp [ho2])
            · split
              · cases hql with
                | enot _ hqa =>
                  cases hqr with
                  | enot _ hqb =>
                    have h1 := ihn _ (qa _ _ hqa hqb) s hs
                    have h2 := evalExpr_cong_not (iha _ _ hqa hqb s hs)
                    exact h1.trans
                      (h2.trans (evalExpr_demorgan_or _ _ hqa s hs))
              · rfl
      · rfl

/-- At levels 0 and 1, `new_comma_expr` evaluates like the plain comma node
(the stripped negation only changes the discarded value). -/
theorem newCommaExpr_eval_equiv {W : Type} (o : Nat) (ho : o ≤ 1)
    (l r : Expr W) (s : EvalSt W) :
    evalExpr (newCommaExpr o l r) s = evalExpr (Expr.ecomma l r) s := by
  have ho2 : ¬ 2 ≤ o := by omega
  simp only [newCommaExpr]
  split
  · split
    · exact absurd (by assumption) (by simp [ho2])
    · split
      · exact evalExpr_comma_stripnot _ _ s
      · rfl
  · rfl

/-- At levels 0 and 1 the bottom-up optimizer preserves evaluation exactly,
for quit-free expressions and a clear quit flag. -/
theorem optimizeExpr_eval_equiv {W : Type} (fuel o : Nat) (ho : o ≤ 1) :
    ∀ e : Expr W, QuitFree e → ∀ s : EvalSt W, s.quit = false →
      evalExpr (optimizeExpr fuel o e) s = evalExpr e s := by
  intro e
  induction e with
  | etrue => intro _ s _; simp only [optimizeExpr]
  | efalse => intro _ s _; simp only [optimizeExpr]
  | test f => intro _ s _; simp only [optimizeExpr]
  | act f => intro _ s _; simp only [optimizeExpr]
  | enot r ihr =>
    intro hq s hs
    cases hq with
    | enot _ hqr =>
      simp only [optimizeExpr]
      have h1 := (newExpr_eval_equiv fuel o ho).1 (optimizeExpr fuel o r)
        (optimizeExpr_quitfree fuel o r hqr) s hs
      exact h1.trans (evalExpr_cong_not (ihr hqr s hs))
  | eand l r ihl ihr =>
    intro hq s hs
    cases hq with
    | eand _ _ hql hqr =>
      simp only [optimizeExpr]
      have h1 := (newExpr_eval_equiv fuel o ho).2.1 (optimizeExpr fuel o l)
        (optimizeExpr fuel o r) (optimizeExpr_quitfree fuel o l hql)
        (optimizeExpr_quitfree fuel o r hqr) s hs
      exact h1.trans (evalExpr_cong_and hql s hs
        (fun σ hσ => ihl hql σ hσ) (fun σ hσ => ihr hqr σ hσ))
  | eor l r ihl ihr =>
    intro hq s hs
    cases hq with
    | eor _ _ hql hqr =>
      simp only [optimizeExpr]
      have h1 := (newExpr_eval_equiv fuel o ho).2.2 (optimizeExpr fuel o l)
        (optimizeExpr fuel o r) (optimizeExpr_quitfree fuel o l hql)
        (optimizeExpr_quitfree fuel o r hqr) s hs
      exact h1.trans (evalExpr_cong_or hql s hs
        (fun σ hσ => ihl hql σ hσ) (fun σ hσ => ihr hqr σ hσ))
  | ecomma l r ihl ihr =>
    intro hq s hs
    cases hq with
    | ecomma _ _ hql hqr =>
      simp only [optimizeExpr]
      have h1 := newCommaExpr_eval_equiv o ho (optimizeExpr fuel o l)
        (optimizeExpr fuel o r) s
      refine h1.trans ?_
      have hq2 := evalExpr_quitpres hql s hs
      simp only [evalExpr, ihl hql s hs]
      rcases hbl : evalExpr l s with ⟨b, s2⟩
      simp only [hbl] at hq2
      simp [hq2, ihr hqr s2 hq2]

/-- At levels 0 and 1 `optimize_whole_expr` is the identity (its rewrites are
gated on levels 2 and 4). -/
theorem optimizeWholeExpr_le1 {W : Type} (o : Nat) (ho : o ≤ 1) (e : Expr W) :
    optimizeWholeExpr o e = e := by
  have h2 : ¬ 2 ≤ o := by omega
  have h4 : ¬ 4 ≤ o := by omega
  simp [optimizeWholeExpr, h2, h4]

/-- **C3 (counterexample).** The claim fails as stated.  First: with the
impure leaf `-quit` (an action that returns true and sets the quit flag),
the level-1 rewrite of `new_and_expr` turns `quit -and -true` into `quit`,
changing the boolean result from false (the unoptimized `eval_and` checks
the quit flag before its right operand and returns false) to true.  Second:
at level 4 `optimize_whole_expr` replaces the pure expression `-true` by the
false singleton, so even an expression with no impure leaf changes its
result. -/
theorem optimizer_not_semantics_preserving :
    ((evalExpr (optimizePipeline 1 1
        (Expr.eand (Expr.act (fun s : EvalSt Unit => (true, ⟨s.world, true⟩)))
          Expr.etrue)) ⟨(), false⟩).1 = true ∧
     (evalExpr (Expr.eand (Expr.act (fun s : EvalSt Unit => (true, ⟨s.world, true⟩)))
          Expr.etrue) ⟨(), false⟩).1 = false) ∧
    ((evalExpr (optimizePipeline 1 4 (Expr.etrue : Expr Unit)) ⟨(), false⟩).1
        = false ∧
     (evalExpr (Expr.etrue : Expr Unit) ⟨(), false⟩).1 = true) := by
  refine ⟨⟨?_, ?_⟩, ⟨?_, ?_⟩⟩
  · simp [optimizePipeline, optimizeExpr, newAndExpr, optimizeWholeExpr,
      stripTop, evalExpr]
  · simp [evalExpr]
  · simp [optimizePipeline, optimizeExpr, optimizeWholeExpr, stripTop,
      evalExpr, Expr.pureB, Expr.isEFalse]
  · rfl

/-- **C3 (amended).** At optimization levels 0 and 1 the optimizer is
observationally sound: for every quit-free expression (no `-quit` inside)
and every evaluation state whose quit flag is clear, the optimization
pipeline — the bottom-up smart constructors `new_not_expr`/`new_and_expr`/
`new_or_expr`/`new_comma_expr` followed by `optimize_whole_expr` — produces
exactly the same boolean result and the same final state, hence identical
observable side effects, as the original expression.  (As stated the claim
fails: the level-1 conjunction rewrites change the boolean result when an
operand sets the quit flag, the level-2 purity rewrites change which impure
operands execute, and the level-4 whole-expression rewrite changes the
result of pure expressions.) -/
theorem optimizer_sound_quitfree {W : Type} (fuel o : Nat) (e : Expr W)
    (s : EvalSt W) (ho : o ≤ 1) (hq : QuitFree e) (hs : s.quit = false) :
    evalExpr (optimizePipeline fuel o e) s = evalExpr e s := by
  unfold optimizePipeline
  rw [optimizeWholeExpr_le1 o ho]
  exact optimizeExpr_eval_equiv fuel o ho e hq s hs

/-- Witness for the amended C3 theorem at a concrete optimizable input
(a double negation under a conjunction with the true singleton). -/
theorem optimizer_sound_quitfree_witness :
    evalExpr (optimizePipeline 2 1
        (Expr.eand
          (Expr.enot (Expr.enot (Expr.test (fun _ : EvalSt Unit => true))))
          Expr.etrue)) ⟨(), false⟩
      = evalExpr (Expr.eand
          (Expr.enot (Expr.enot (Expr.test (fun _ : EvalSt Unit => true))))
          Expr.etrue) ⟨(), false⟩ :=
  optimizer_sound_quitfree 2 1 _ _ (by decide)
    (QuitFree.eand _ _
      (QuitFree.enot _ (QuitFree.enot _ (QuitFree.test _)))
      QuitFree.etrue) rfl

/-! ### Top-level return value: claim C6 -/

/-- Each leaf's evaluation preserves the return-code/error invariant; in
particular `eval_quit` touches neither the return code nor the error
count. -/
theorem CLeaf_eval_inv (l : CLeaf) (s : EvalSt C6World) (h : InvW s) :
    InvW ((l.eval s).2) := by
  cases l with
  | ltest p => exact h
  | lprint => exact h
  | lprune => exact h
  | lquit => exact h
  | lerrtest errP mP =>
    simp only [CLeaf.eval]
    split
    · exact Or.inr ⟨rfl, Nat.succ_pos _⟩
    · exact h

/-- Evaluating any command-line expression preserves the invariant. -/
theorem evalExpr_toExpr_inv :
    ∀ (e : CExpr) (s : EvalSt C6World), InvW s →
      InvW ((evalExpr e.toExpr s).2) := by
  intro e
  induction e with
  | ctrue => intro s h; exact h
  | cfalse => intro s h; exact h
  | leaf l =>
    intro s h
    cases l with
    | ltest p => exact h
    | lprint => exact CLeaf_eval_inv CLeaf.lprint s h
    | lprune => exact CLeaf_eval_inv CLeaf.lprune s h
    | lquit => exact CLeaf_eval_inv CLeaf.lquit s h
    | lerrtest a b => exact CLeaf_eval_inv (CLeaf.lerrtest a b) s h
  | cnot r ihr =>
    intro s h
    simp only [CExpr.toExpr, evalExpr]
    exact ihr s h
  | cand l r ihl ihr =>
    intro s h
    simp only [CExpr.toExpr, evalExpr]
    split
    · exact ihl s h
    · split
      · exact ihl s h
      · exact ihr _ (ihl s h)
  | cor l r ihl ihr =>
    intro s h
    simp only [CExpr.toExpr, evalExpr]
    split
    · exact ihl s h
    · split
      · exact ihl s h
      · exact ihr _ (ihl s h)
  | ccomma l r ihl ihr =>
    intro s h
    simp only [CExpr.toExpr, evalExpr]
    split
    · exact ihl s h
    · exact ihr _ (ihl s h)

/-- `cmdline_callback` preserves the invariant on the persistent callback
arguments. -/
theorem cmdlineCallback_inv (cm : CmdlineM) (args : CbArgs) (v : Visit)
    (h : InvA args) : InvA (cmdlineCallback cm args v).2 := by
  simp only [cmdlineCallback]
  repeat' split
  all_goals
    first
    | exact h
    | exact evalExpr_toExpr_inv cm.expr _ h

/-- A callback invariant is preserved through one readdir expansion. -/
theorem expandChildren_pres {σ : Type} (cb : σ → Visit → BftwAction × σ)
    (P : σ → Prop) (hcb : ∀ s v, P s → P (cb s v).2) (cp : List Nat) :
    ∀ (cs : List FSObj) (i : Nat) (rs : Refs) (s : σ), P s →
      P (expandChildren cb cp i cs rs s).st := by
  intro cs
  induction cs with
  | nil => intro i rs s h; exact h
  | cons c cs ih =>
    intro i rs s h
    simp only [expandChildren]
    rcases hc : cb s ⟨cp ++ [i], c.isDir, BftwVisit.pre⟩ with ⟨a, s2⟩
    have h2 : P s2 := by
      have h3 := hcb s ⟨cp ++ [i], c.isDir, BftwVisit.pre⟩ h
      rw [hc] at h3
      exact h3
    cases a with
    | stop => exact h2
    | skipSiblings => exact h2
    | skipSubtree => exact ih _ _ _ h2
    | cont =>
      cases c with
      | file => exact ih _ _ _ h2
      | dir gs => exact ih _ _ _ h2
    

/-- A callback invariant is preserved through the garbage-collection
chain. -/
theorem bftwGcChain_pres {σ : Type} (cb : σ → Visit → BftwAction × σ)
    (P : σ → Prop) (hcb : ∀ s v, P s → P (cb s v).2) :
    ∀ (n : Nat) (p : List Nat) (rs : Refs) (s : σ) (invoke : Bool),
      p.length = n → P s → P (bftwGcChain cb p rs s invoke).st := by
  intro n
  induction n using Nat.strong_induction_on with
  | _ n ih =>
    intro p rs s invoke hlen h
    rw [bftwGcChain]
    by_cases hgt : 1 < refsGet rs p
    · simp only [if_pos hgt]
      exact h
    · simp only [if_neg hgt]
      by_cases hinv : invoke = true
      · rw [if_pos hinv]
        rcases hc : cb s ⟨p, true, BftwVisit.post⟩ with ⟨a, s2⟩
        have h2 : P s2 := by
          have h3 := hcb s ⟨p, true, BftwVisit.post⟩ h
          rw [hc] at h3
          exact h3
        by_cases hpnil : p = []
        · rw [if_pos hpnil]
          exact h2
        · rw [if_neg hpnil]
          have h0 : 0 < p.length := List.length_pos.mpr hpnil
          exact ih p.dropLast.length (by rw [List.length_dropLast]; omega)
            p.dropLast _ _ _ rfl h2
      · rw [if_neg hinv]
        by_cases hpnil : p = []
        · rw [if_pos hpnil]
          exact h
        · rw [if_neg hpnil]
          have h0 : 0 < p.length := List.length_pos.mpr hpnil
          exact ih p.dropLast.length (by rw [List.length_dropLast]; omega)
            p.dropLast _ _ _ rfl h

/-- A callback invariant is preserved through the main loop. -/
theorem bftwLoop_pres {σ : Type} (cb : σ → Visit → BftwAction × σ)
    (P : σ → Prop) (hcb : ∀ s v, P s → P (cb s v).2) (depthFlag : Bool) :
    ∀ (w : Nat) (cur : EntT) (queue : List EntT) (rs : Refs) (s : σ),
      entSize cur + (queue.map entSize).sum = w →
      P s → P (bftwLoop cb depthFlag cur queue rs s).2 := by
  intro w
  induction w using Nat.strong_induction_on with
  | _ w ih =>
    intro cur queue rs s hw h
    have he : P (expandChildren cb cur.1 0 cur.2 rs s).st :=
      expandChildren_pres cb P hcb cur.1 cur.2 0 rs s h
    have hg : P (bftwGc cb depthFlag cur.1
        (expandChildren cb cur.1 0 cur.2 rs s).refs
        (expandChildren cb cur.1 0 cur.2 rs s).st true).st :=
      bftwGcChain_pres cb P hcb cur.1.length cur.1 _ _ _ rfl he
    rw [bftwLoop]
    by_cases hstop : (expandChildren cb cur.1 0 cur.2 rs s).stopped = true
    · simp only [if_pos hstop]
      exact he
    · simp only [if_neg hstop]
      by_cases hgstop : (bftwGc cb depthFlag cur.1
          (expandChildren cb cur.1 0 cur.2 rs s).refs
          (expandChildren cb cur.1 0 cur.2 rs s).st true).stopRet = true
      · simp only [if_pos hgstop]
        exact hg
      · simp only [if_neg hgstop]
        split
        · exact hg
        · rename_i nxt rest heq
          have hsum : ((nxt :: rest).map entSize).sum
              = ((queue.map entSize).sum)
                + (((expandChildren cb cur.1 0 cur.2 rs s).ents.map entSize).sum) := by
            rw [← heq]
            simp
          have hsz := expandChildren_ents_size cb cur.1 0 cur.2 rs s
          have hless : entSize nxt + (rest.map entSize).sum < w := by
            simp only [List.map_cons, List.sum_cons] at hsum
            simp only [entSize] at hsum hsz hw ⊢
            omega
          exact ih _ hless nxt rest _ _ rfl hg

/-- A callback invariant is preserved through a whole walk. -/
theorem bftwRun_pres {σ : Type} (cb : σ → Visit → BftwAction × σ)
    (P : σ → Prop) (hcb : ∀ s v, P s → P (cb s v).2) (depthFlag : Bool)
    (root : FSObj) (s0 : σ) (h : P s0) :
    P (bftwRun cb depthFlag root s0).2 := by
  unfold bftwRun
  rcases hc : cb s0 ⟨[], root.isDir, BftwVisit.pre⟩ with ⟨a, s2⟩
  have h2 : P s2 := by
    have h3 := hcb s0 ⟨[], root.isDir, BftwVisit.pre⟩ h
    rw [hc] at h3
    exact h3
  simp only [hc]
  cases a with
  | skipSubtree => exact h2
  | stop => exact h2
  | skipSiblings =>
    cases root with
    | file => exact h2
    | dir cs => exact bftwLoop_pres cb P hcb depthFlag _ ([], cs) [] _ _ rfl h2
  | cont =>
    cases root with
    | file => exact h2
    | dir cs => exact bftwLoop_pres cb P hcb depthFlag _ ([], cs) [] _ _ rfl h2

/-- The invariant holds after walking any list of roots. -/
theorem evalCmdlineRoots_inv (cm : CmdlineM) :
    ∀ (roots : List FSObj) (args : CbArgs), InvA args →
      InvA (evalCmdlineRoots cm roots args) := by
  intro roots
  induction roots with
  | nil => intro args h; exact h
  | cons root rest ih =>
    intro args h
    simp only [evalCmdlineRoots]
    split
    · exact h
    · exact ih _ (bftwRun_pres (cmdlineCallback cm) InvA
        (fun args2 v h2 => cmdlineCallback_inv cm args2 v h2)
        cm.depthFlag root args h)

/-- **C6.** The top-level evaluation returns 0 exactly when no evaluation or
traversal error was recorded during the walk (the only other possible value
is -1, set when an error is recorded); the quit action changes neither the
return code nor the error count, so a run ended by `-quit` returns 0 unless
a prior error was recorded. -/
theorem evalCmdline_ret_ok (cm : CmdlineM) :
    ((evalCmdline cm).1 = 0 ↔ (evalCmdline cm).2.errs = 0) ∧
    ((evalCmdline cm).1 = 0 ∨ (evalCmdline cm).1 = -1) ∧
    (∀ s : EvalSt C6World,
      ((CLeaf.lquit.eval s).2).world.ret = s.world.ret ∧
      ((CLeaf.lquit.eval s).2).world.errs = s.world.errs) := by
  have hinv : InvA (evalCmdlineRoots cm cm.roots ⟨0, false, [], 0⟩) :=
    evalCmdlineRoots_inv cm cm.roots ⟨0, false, [], 0⟩ (Or.inl ⟨rfl, rfl⟩)
  simp only [evalCmdline]
  split
  · exact ⟨⟨fun _ => rfl, fun _ => rfl⟩, Or.inl rfl, fun s => ⟨rfl, rfl⟩⟩
  · rcases hinv with ⟨h1, h2⟩ | ⟨h1, h2⟩
    · exact ⟨⟨fun _ => h2, fun _ => h1⟩, Or.inl h1, fun s => ⟨rfl, rfl⟩⟩
    · refine ⟨⟨?_, ?_⟩, Or.inr h1, fun s => ⟨rfl, rfl⟩⟩
      · intro hc
        have hc2 : (evalCmdlineRoots cm cm.roots ⟨0, false, [], 0⟩).ret = 0 := hc
        exact absurd hc2 (by omega)
      · intro hc
        have hc2 : (evalCmdlineRoots cm cm.roots ⟨0, false, [], 0⟩).errs = 0 := hc
        exact absurd hc2 (by omega)

/-! ### The dircache heap: C4 and C5 -/

/-- The heap order is reflexive. -/
theorem dircacheHeapCheck_refl (e : DCEntry) : dircacheHeapCheck e e = true := by
  simp [dircacheHeapCheck]

/-- The heap order is transitive. -/
theorem dircacheHeapCheck_trans {a b c : DCEntry}
    (h1 : dircacheHeapCheck a b = true) (h2 : dircacheHeapCheck b c = true) :
    dircacheHeapCheck a c = true := by
  simp only [dircacheHeapCheck] at *
  split at h1 <;> split at h2 <;> split <;> simp_all <;> omega

/-- Supporting fact for the claim's "hence": in a heap that does satisfy the
parent/child order, the root dominates every entry — it is a deepest open
entry with the fewest references among those at that depth.  (The bug below
is that the maintenance code does not preserve `HeapOrdered`.) -/
theorem heapOrdered_root_dominates (h : List DCEntry) (hord : HeapOrdered h)
    (h0 : 0 < h.length) :
    ∀ i : Fin h.length, dircacheHeapCheck (h.get ⟨0, h0⟩) (h.get i) = true := by
  have key : ∀ i (hi : i < h.length),
      dircacheHeapCheck (h.get ⟨0, h0⟩) (h.get ⟨i, hi⟩) = true := by
    intro i
    induction i using Nat.strong_induction_on with
    | _ i ih =>
      intro hi
      cases i with
      | zero => exact dircacheHeapCheck_refl _
      | succ n =>
        have hpar : (n + 1 - 1)/2 < h.length := by omega
        have h1 := ih ((n + 1 - 1)/2) (by omega) hpar
        have h2 := hord ⟨n + 1, hi⟩ ⟨(n + 1 - 1)/2, hpar⟩ rfl (Nat.succ_pos n)
        exact dircacheHeapCheck_trans h1 h2
  intro ⟨i, hi⟩
  exact key i hi

/-- C4 is refuted on the code: `dircache_bubble_down` sifts the moved entry
all the way to a leaf of the preferred-child path without ever comparing it
against the promoted children, so plain pushes followed by two root
closures (exactly what a full cache does) leave the heap out of order with a
non-deepest entry at position 0.  Entries are `(id, depth, refcount)`; all
reference counts are 1.  After pushing depths 9,1,8,0,0,5,7 (a valid heap in
that array order) and closing the root twice, the heap reads depths
[5,1,7,0,0]: position 0 holds depth 5 while the depth-7 entry is still open,
so the entry closed next is not a deepest one, contradicting both the claimed
invariant and its consequence. -/
theorem dircache_heap_bug :
    HeapOrdered (List.foldl dircachePush []
      [⟨0,9,1⟩, ⟨1,1,1⟩, ⟨2,8,1⟩, ⟨3,0,1⟩, ⟨4,0,1⟩, ⟨5,5,1⟩, ⟨6,7,1⟩]) ∧
    ¬ HeapOrdered (dircachePopAt (List.foldl dircachePush []
      [⟨0,9,1⟩, ⟨1,1,1⟩, ⟨2,8,1⟩, ⟨3,0,1⟩, ⟨4,0,1⟩, ⟨5,5,1⟩, ⟨6,7,1⟩]) 0) ∧
    ((dircachePopAt (dircachePopAt (List.foldl dircachePush []
      [⟨0,9,1⟩, ⟨1,1,1⟩, ⟨2,8,1⟩, ⟨3,0,1⟩, ⟨4,0,1⟩, ⟨5,5,1⟩, ⟨6,7,1⟩]) 0) 0).map
        (fun e => e.depth)) = [5, 1, 7, 0, 0] ∧
    (∃ e ∈ dircachePopAt (dircachePopAt (List.foldl dircachePush []
      [⟨0,9,1⟩, ⟨1,1,1⟩, ⟨2,8,1⟩, ⟨3,0,1⟩, ⟨4,0,1⟩, ⟨5,5,1⟩, ⟨6,7,1⟩]) 0) 0,
      ((dircachePopAt (dircachePopAt (List.foldl dircachePush []
        [⟨0,9,1⟩, ⟨1,1,1⟩, ⟨2,8,1⟩, ⟨3,0,1⟩, ⟨4,0,1⟩, ⟨5,5,1⟩, ⟨6,7,1⟩]) 0) 0).headD
          default).depth < e.depth) := by decide

/-- `dircache_bubble_down` permutes entries between slots; it never changes
the number of slots. -/
theorem dircacheBubbleDownF_length (fuel : Nat) (h : List DCEntry) (e : DCEntry)
    (i : Nat) : (dircacheBubbleDownF fuel h e i).length = h.length := by
  induction fuel generalizing h e i with
  | zero => simp [dircacheBubbleDownF]
  | succ fuel ih =>
    unfold dircacheBubbleDownF
    split
    · split
      · split <;> rw [ih] <;> simp
      · rw [ih]; simp
    · simp

/-- `dircache_bubble_up` also preserves the number of slots. -/
theorem dircacheBubbleUpF_length (fuel : Nat) (h : List DCEntry) (e : DCEntry)
    (i : Nat) : (dircacheBubbleUpF fuel h e i).length = h.length := by
  induction fuel generalizing h e i with
  | zero => simp [dircacheBubbleUpF]
  | succ fuel ih =>
    unfold dircacheBubbleUpF
    split
    · split
      · simp
      · rw [ih]; simp
    · simp

/-- `dircache_pop` removes exactly one slot. -/
theorem dircachePopAt_length (h : List DCEntry) (i : Nat) :
    (dircachePopAt h i).length = h.length - 1 := by
  unfold dircachePopAt
  split
  · simp
  · cases hg : h.get? (h.length - 1) with
    | none => simp
    | some e =>
      simp [dircacheBubbleDown, dircacheBubbleDownF_length]

/-- C5 fails on the code in its capacity conjunct: a cache with capacity 4
and two open entries hit by EMFILE evicts one entry and sets the capacity to
1 — the remaining number of open entries — a shrink of 3, not of one. -/
theorem dircacheShouldRetry_counterexample :
    (dircacheShouldRetry ⟨[⟨0,5,1⟩, ⟨1,3,1⟩], 4⟩ none EMFILE).1 = true ∧
    (dircacheShouldRetry ⟨[⟨0,5,1⟩, ⟨1,3,1⟩], 4⟩ none EMFILE).2.1.capacity = 1 ∧
    (⟨[⟨0,5,1⟩, ⟨1,3,1⟩], 4⟩ : DirCache).capacity - 1 = 3 := by decide

/-- C5 amended: on EMFILE with at least two open entries the cache closes
exactly one open entry — never the one that must be preserved — sets its
capacity to the remaining number of open entries (one less than were open,
which can shrink the capacity by more than one), and the caller retries the
failed operation exactly once; any error that is not an EMFILE-with-retry
makes `dircache_entry_open` return NULL with that errno preserved, and a
failure of the single retried `openat` likewise returns NULL with the retried
call's errno. -/
theorem dircacheEntryOpen_error_spec :
    (∀ (c : DirCache) (save : Option Nat) (e : Nat),
      e = EMFILE → 1 < c.heap.length → (c.heap.map (fun x => x.id)).Nodup →
      (dircacheShouldRetry c save e).1 = true ∧
      (dircacheShouldRetry c save e).2.1.heap.length = c.heap.length - 1 ∧
      (dircacheShouldRetry c save e).2.1.capacity = c.heap.length - 1 ∧
      (∀ cid, (dircacheShouldRetry c save e).2.2 = some cid → save ≠ some cid)) ∧
    (∀ (c : DirCache) (save : Option Nat) (e : Nat),
      e ≠ EMFILE ∨ ¬ 1 < c.heap.length →
      dircacheShouldRetry c save e = (false, c, none)) ∧
    (∀ (c : DirCache) (entry : DCEntry) (base : Option Nat) (env : OpenEnv) (e1 : Nat),
      env.open1 = SysRes.err e1 → e1 ≠ EMFILE →
      dircacheEntryOpen c entry base env =
        ⟨none,
          if c.heap.length = c.capacity then ⟨dircachePopAt c.heap 0, c.capacity⟩ else c,
          e1⟩) ∧
    (∀ (c : DirCache) (entry : DCEntry) (base : Option Nat) (env : OpenEnv) (e2 : Nat),
      env.open1 = SysRes.err EMFILE → env.open2 = SysRes.err e2 →
      1 < (if c.heap.length = c.capacity then
            (⟨dircachePopAt c.heap 0, c.capacity⟩ : DirCache) else c).heap.length →
      dircacheEntryOpen c entry base env =
        ⟨none,
          (dircacheShouldRetry
            (if c.heap.length = c.capacity then
              (⟨dircachePopAt c.heap 0, c.capacity⟩ : DirCache) else c) base EMFILE).2.1,
          e2⟩) := by
  refine ⟨?_, ?_, ?_, ?_⟩
  · intro c save e he hlen hnd
    subst he
    rcases c with ⟨heap, cap⟩
    match heap, hlen, hnd with
    | a :: b :: t, hlen, hnd =>
      simp only [List.map_cons, List.nodup_cons, List.mem_cons] at hnd
      by_cases hs : save = some a.id
      · refine ⟨?_, ?_, ?_, ?_⟩
        · simp [dircacheShouldRetry]
        · simp [dircacheShouldRetry, dircachePopAt_length]
        · simp [dircacheShouldRetry, dircachePopAt_length]
        · intro cid hcid hsave
          simp [dircacheShouldRetry, hs] at hcid
          subst hcid
          rw [hs] at hsave
          have : a.id = b.id := by injection hsave
          exact hnd.1 (Or.inl this)
      · refine ⟨?_, ?_, ?_, ?_⟩
        · simp [dircacheShouldRetry]
        · simp [dircacheShouldRetry, dircachePopAt_length]
        · simp [dircacheShouldRetry, dircachePopAt_length]
        · intro cid hcid hsave
          simp [dircacheShouldRetry, hs] at hcid
          subst hcid
          exact hs hsave
  · intro c save e he
    unfold dircacheShouldRetry
    rw [if_neg (by intro hc; rcases he with he | he; exacts [he hc.1, he hc.2])]
  · intro c entry base env e1 h1 hne
    unfold dircacheEntryOpen
    rw [h1]
    have hfr : (dircacheShouldRetry
        (if c.heap.length = c.capacity then
          (⟨dircachePopAt c.heap 0, c.capacity⟩ : DirCache) else c) base e1).1 = false := by
      unfold dircacheShouldRetry
      rw [if_neg (by intro hc; exact hne hc.1)]
    simp only [hfr, Bool.false_eq_true, if_false]
  · intro c entry base env e2 h1 h2 hlen
    unfold dircacheEntryOpen
    rw [h1]
    have hretry : (dircacheShouldRetry
        (if c.heap.length = c.capacity then
          (⟨dircachePopAt c.heap 0, c.capacity⟩ : DirCache) else c) base EMFILE).1 = true := by
      unfold dircacheShouldRetry
      rw [if_pos ⟨rfl, hlen⟩]
    simp only [hretry, if_true, h2]

/-- Witness for C5's amended claim at concrete inputs. -/
theorem dircacheEntryOpen_error_spec_witness :
    (dircacheShouldRetry ⟨[⟨0,5,1⟩, ⟨1,3,1⟩], 4⟩ none EMFILE).1 = true ∧
    dircacheEntryOpen ⟨[], 8⟩ ⟨9, 2, 1⟩ none
      ⟨SysRes.err 13, SysRes.ok 5, SysRes.ok 5, SysRes.ok 5, SysRes.ok 5⟩ =
      ⟨none, ⟨[], 8⟩, 13⟩ :=
  ⟨((dircacheEntryOpen_error_spec.1 ⟨[⟨0,5,1⟩, ⟨1,3,1⟩], 4⟩ none EMFILE rfl
      (by decide) (by decide)).1),
   by
    have := dircacheEntryOpen_error_spec.2.2.1 ⟨[], 8⟩ ⟨9, 2, 1⟩ none
      ⟨SysRes.err 13, SysRes.ok 5, SysRes.ok 5, SysRes.ok 5, SysRes.ok 5⟩ 13 rfl (by decide)
    simpa using this⟩

end Bfs
